import Mathlib

/-!
Verification development for the duckai-cli repository (Rust sources under
`src/`).  The Rust code is shallowly embedded: pure functions become Lean
functions over `List Char` / `Nat`, effectful code becomes explicit state
passing plus an event trace, and external calls (HTTP, the JS engine, serde)
become oracle parameters.  All definitions follow the Rust source; section
headers name the file they embed.
-/

namespace Duckai

/-! ## src/util/mod.rs -/

/-- Rust `char::is_ascii_whitespace`: space, tab, newline, form feed, carriage
return. -/
def rustIsAsciiWhitespace (c : Char) : Bool :=
  c = ' ' || c = '\t' || c = '\n' || c = '\x0c' || c = '\r'

/-- Rust `char::is_whitespace` (Unicode `White_Space`). -/
def rustIsWhitespace (c : Char) : Bool :=
  c.toNat = 0x9 || c.toNat = 0xA || c.toNat = 0xB || c.toNat = 0xC ||
  c.toNat = 0xD || c.toNat = 0x20 || c.toNat = 0x85 || c.toNat = 0xA0 ||
  c.toNat = 0x1680 || (0x2000 ≤ c.toNat && c.toNat ≤ 0x200A) ||
  c.toNat = 0x2028 || c.toNat = 0x2029 || c.toNat = 0x202F ||
  c.toNat = 0x205F || c.toNat = 0x3000

/-- Split a character list at every separator recognized by `p`, keeping empty
pieces, i.e. Rust `str::split` with a char-predicate pattern. -/
def splitOnPred (p : Char → Bool) : List Char → List (List Char)
  | [] => [[]]
  | c :: cs =>
    if p c then [] :: splitOnPred p cs
    else
      match splitOnPred p cs with
      | [] => [[c]]
      | l :: rest => (c :: l) :: rest

/-- The separator predicate used by `parse_tile_selection`:
`|c| c.is_ascii_whitespace() || c == ','`. -/
def tileSeparator (c : Char) : Bool := rustIsAsciiWhitespace c || c = ','

/-- Rust `usize::from_str`: an optional leading `+`, then one or more ASCII
digits; the value must fit in a 64-bit `usize`. -/
def parseUsize (token : List Char) : Option Nat :=
  let digits := match token with
    | '+' :: rest => rest
    | t => t
  if digits = [] then none
  else if digits.all (fun c => c.isDigit) then
    let v := digits.foldl (fun acc c => acc * 10 + (c.toNat - '0'.toNat)) 0
    if v < 2 ^ 64 then some v else none
  else none

/-- Insert into an ascending duplicate-free list, the shape a `BTreeSet<usize>`
iterates in. -/
def insertSorted (x : Nat) : List Nat → List Nat
  | [] => [x]
  | y :: ys =>
    if x < y then x :: y :: ys
    else if x = y then y :: ys
    else y :: insertSorted x ys

/-- One step of the `parse_tile_selection` fold: skip empty tokens, keep
in-range parsed indices. -/
def tileStep (len : Nat) (acc : List Nat) (token : List Char) : List Nat :=
  if token = [] then acc
  else
    match parseUsize token with
    | some v => if v < len then insertSorted v acc else acc
    | none => acc

/-- `util::parse_tile_selection`: tokenize on commas/whitespace, skip empty
tokens, keep tokens that parse as `usize` below `len`, collect into a
`BTreeSet` (ascending, deduplicated). -/
def parse_tile_selection (input : List Char) (len : Nat) : List Nat :=
  (splitOnPred tileSeparator input).foldl (tileStep len) []

/-! Order/dedup/membership facts about `insertSorted`. -/

theorem insertSorted_mem (x : Nat) (l : List Nat) (z : Nat) :
    z ∈ insertSorted x l ↔ z = x ∨ z ∈ l := by
  induction l with
  | nil => simp [insertSorted]
  | cons y ys ih =>
    simp only [insertSorted]
    split_ifs with h1 h2
    · simp only [List.mem_cons]
      try tauto
    · subst h2
      simp only [List.mem_cons]
      try tauto
    · simp only [List.mem_cons, ih]
      try tauto

theorem insertSorted_sorted (x : Nat) (l : List Nat)
    (hl : l.Pairwise (· < ·)) : (insertSorted x l).Pairwise (· < ·) := by
  induction l with
  | nil => simp [insertSorted]
  | cons y ys ih =>
    rw [List.pairwise_cons] at hl
    simp only [insertSorted]
    split_ifs with h1 h2
    · rw [List.pairwise_cons]
      refine ⟨?_, List.pairwise_cons.mpr hl⟩
      intro z hz
      rcases List.mem_cons.mp hz with rfl | hz
      · exact h1
      · exact lt_trans h1 (hl.1 z hz)
    · subst h2
      exact List.pairwise_cons.mpr hl
    · rw [List.pairwise_cons]
      refine ⟨?_, ih hl.2⟩
      intro z hz
      rcases (insertSorted_mem x ys z).mp hz with rfl | hz
      · omega
      · exact hl.1 z hz

theorem tileStep_mem (len : Nat) (acc : List Nat) (token : List Char)
    (z : Nat) (hz : z ∈ tileStep len acc token) : z < len ∨ z ∈ acc := by
  unfold tileStep at hz
  split_ifs at hz with h1
  · exact Or.inr hz
  · cases hp : parseUsize token with
    | none => rw [hp] at hz; exact Or.inr hz
    | some v =>
      simp only [hp] at hz
      by_cases h2 : v < len
      · rw [if_pos h2, insertSorted_mem] at hz
        rcases hz with rfl | hz
        · exact Or.inl h2
        · exact Or.inr hz
      · rw [if_neg h2] at hz
        exact Or.inr hz

theorem tileStep_sorted (len : Nat) (acc : List Nat) (token : List Char)
    (hacc : acc.Pairwise (· < ·)) : (tileStep len acc token).Pairwise (· < ·) := by
  unfold tileStep
  split_ifs with h1
  · exact hacc
  · cases hp : parseUsize token with
    | none => exact hacc
    | some v =>
      simp only
      by_cases h2 : v < len
      · rw [if_pos h2]
        exact insertSorted_sorted v acc hacc
      · rw [if_neg h2]
        exact hacc

theorem parse_tile_selection_sorted (input : List Char) (len : Nat) :
    (parse_tile_selection input len).Pairwise (· < ·) := by
  unfold parse_tile_selection
  generalize splitOnPred tileSeparator input = tokens
  have h : ∀ (acc : List Nat), acc.Pairwise (· < ·) →
      (tokens.foldl (tileStep len) acc).Pairwise (· < ·) := by
    induction tokens with
    | nil => intro acc hacc; simpa using hacc
    | cons t ts ih =>
      intro acc hacc
      simp only [List.foldl_cons]
      exact ih _ (tileStep_sorted len acc t hacc)
  exact h [] (by simp)

theorem parse_tile_selection_mem (input : List Char) (len : Nat) (z : Nat) :
    z ∈ parse_tile_selection input len → z < len := by
  unfold parse_tile_selection
  generalize splitOnPred tileSeparator input = tokens
  have h : ∀ (acc : List Nat), (∀ y ∈ acc, y < len) →
      ∀ y ∈ tokens.foldl (tileStep len) acc, y < len := by
    induction tokens with
    | nil => intro acc hacc; simpa using hacc
    | cons t ts ih =>
      intro acc hacc
      simp only [List.foldl_cons]
      refine ih _ ?_
      intro y hy
      rcases tileStep_mem len acc t y hy with h2 | h2
      · exact h2
      · exact hacc y h2
  intro hz
  exact h [] (by simp) z hz

theorem tileStep_mem_iff (len : Nat) (acc : List Nat) (token : List Char)
    (z : Nat) : z ∈ tileStep len acc token ↔
      z ∈ acc ∨ (token ≠ [] ∧ parseUsize token = some z ∧ z < len) := by
  unfold tileStep
  split_ifs with h1
  · simp [h1]
  · cases hp : parseUsize token with
    | none => simp [h1, hp]
    | some v =>
      simp only
      by_cases h2 : v < len
      · rw [if_pos h2, insertSorted_mem]
        constructor
        · rintro (rfl | hz)
          · exact Or.inr ⟨h1, rfl, h2⟩
          · exact Or.inl hz
        · rintro (hz | ⟨-, hzeq, -⟩)
          · exact Or.inr hz
          · exact Or.inl (Option.some_injective _ hzeq.symm)
      · rw [if_neg h2]
        constructor
        · exact Or.inl
        · rintro (hz | ⟨-, hzeq, hzlen⟩)
          · exact hz
          · cases Option.some_injective _ hzeq
            omega

theorem parse_tile_selection_mem_iff (input : List Char) (len : Nat)
    (z : Nat) : z ∈ parse_tile_selection input len ↔
      ∃ t ∈ splitOnPred tileSeparator input,
        t ≠ [] ∧ parseUsize t = some z ∧ z < len := by
  unfold parse_tile_selection
  generalize splitOnPred tileSeparator input = tokens
  have h : ∀ (acc : List Nat),
      (z ∈ tokens.foldl (tileStep len) acc ↔
        z ∈ acc ∨ ∃ t ∈ tokens, t ≠ [] ∧ parseUsize t = some z ∧ z < len) := by
    induction tokens with
    | nil => intro acc; simp
    | cons t ts ih =>
      intro acc
      simp only [List.foldl_cons, ih, tileStep_mem_iff, List.mem_cons]
      constructor
      · rintro ((hz | hz) | hz)
        · exact Or.inl hz
        · exact Or.inr ⟨t, Or.inl rfl, hz⟩
        · rcases hz with ⟨u, hu, hrest⟩
          exact Or.inr ⟨u, Or.inr hu, hrest⟩
      · rintro (hz | ⟨u, (rfl | hu), hrest⟩)
        · exact Or.inl (Or.inl hz)
        · exact Or.inl (Or.inr hrest)
        · exact Or.inr ⟨u, hu, hrest⟩
  rw [h []]
  simp

/-! ## src/challenge.rs — the interactive surface (`submit_selection`)

`ChallengeState.selection_tx` is `Arc<Mutex<Option<oneshot::Sender<Vec<usize>>>>>`:
a single-use hand-off slot.  The `Mutex` serializes the handlers, so concurrent
requests are modelled as the two serialization orders of their critical
sections.  The state is whether the slot still holds the sender (`slotFull`);
taking it delivers the selections to the waiting resolver exactly once. -/

/-- `sort_unstable` followed by `dedup` on a `Vec<usize>`: the ascending
duplicate-free list of its elements. -/
def sortDedup (l : List Nat) : List Nat := l.foldl (fun acc x => insertSorted x acc) []

/-- The response body of `POST /submit` (status, `success`, `message`). -/
structure SubmitResponse where
  status : Nat
  success : Bool
  message : String
deriving DecidableEq, Repr

/-- `challenge::submit_selection`: filter out-of-range indices, sort, dedup;
empty → HTTP 400 without touching the slot; otherwise take the slot (if still
present) and deliver the selections through it.  Returns the new slot state,
the wire response, and the delivered value (if any). -/
def submit_selection (total : Nat) (slotFull : Bool) (payload : List Nat) :
    Bool × SubmitResponse × Option (List Nat) :=
  let selections := sortDedup (payload.filter (· < total))
  if selections = [] then
    (slotFull, ⟨400, false, "未选择任何有效图块"⟩, none)
  else
    let already_submitted := !slotFull
    let delivered := if slotFull then some selections else none
    if already_submitted then
      (false, ⟨200, true, "已接收选择，请返回终端。"⟩, delivered)
    else
      (false, ⟨200, true, "提交成功，请返回终端。"⟩, delivered)

/-- Serialized processing of a sequence of `/submit` requests against the
hand-off slot: responses in order and the list of delivered hand-offs. -/
def processSubmissions (total : Nat) (slotFull : Bool) :
    List (List Nat) → List SubmitResponse × List (List Nat)
  | [] => ([], [])
  | p :: ps =>
    let r := submit_selection total slotFull p
    let rest := processSubmissions total r.1 ps
    (r.2.1 :: rest.1, r.2.2.toList ++ rest.2)

/-- A submission is valid when some selection survives the in-range filter. -/
def validSubmission (total : Nat) (payload : List Nat) : Prop :=
  sortDedup (payload.filter (· < total)) ≠ []

instance (total : Nat) (payload : List Nat) :
    Decidable (validSubmission total payload) := by
  unfold validSubmission; infer_instance

theorem processSubmissions_nil (total : Nat) (slotFull : Bool) :
    processSubmissions total slotFull [] = ([], []) := rfl

theorem processSubmissions_cons (total : Nat) (slotFull : Bool)
    (p : List Nat) (ps : List (List Nat)) :
    processSubmissions total slotFull (p :: ps) =
      ((submit_selection total slotFull p).2.1 ::
        (processSubmissions total (submit_selection total slotFull p).1 ps).1,
       (submit_selection total slotFull p).2.2.toList ++
        (processSubmissions total (submit_selection total slotFull p).1 ps).2) := rfl

theorem submit_selection_invalid (total : Nat) (slotFull : Bool)
    (payload : List Nat) (h : sortDedup (payload.filter (· < total)) = []) :
    submit_selection total slotFull payload =
      (slotFull, ⟨400, false, "未选择任何有效图块"⟩, none) := by
  unfold submit_selection
  rw [if_pos h]

theorem submit_selection_valid_full (total : Nat) (payload : List Nat)
    (hv : validSubmission total payload) :
    submit_selection total true payload =
      (false, ⟨200, true, "提交成功，请返回终端。"⟩,
        some (sortDedup (payload.filter (· < total)))) := by
  unfold submit_selection
  rw [if_neg hv]
  rfl

theorem submit_selection_valid_empty (total : Nat) (payload : List Nat)
    (hv : validSubmission total payload) :
    submit_selection total false payload =
      (false, ⟨200, true, "已接收选择，请返回终端。"⟩, none) := by
  unfold submit_selection
  rw [if_neg hv]
  rfl

theorem submit_selection_slot_stays_empty (total : Nat) (payload : List Nat) :
    (submit_selection total false payload).1 = false ∧
    (submit_selection total false payload).2.2 = none := by
  by_cases h : sortDedup (payload.filter (· < total)) = []
  · rw [submit_selection_invalid total false payload h]
    exact ⟨rfl, rfl⟩
  · rw [submit_selection_valid_empty total payload h]
    exact ⟨rfl, rfl⟩

/-- Once the slot is empty nothing is ever delivered again. -/
theorem processSubmissions_empty_slot (total : Nat) (ps : List (List Nat)) :
    (processSubmissions total false ps).2 = [] := by
  induction ps with
  | nil => rfl
  | cons p ps ih =>
    rw [processSubmissions_cons,
      (submit_selection_slot_stays_empty total p).1,
      (submit_selection_slot_stays_empty total p).2]
    simpa using ih

/-- C2.  Exactly-once hand-off: for two valid submissions arriving in either
serialization order, exactly the first one's selections are delivered, both
submitters get a success acknowledgment, and any further submissions after a
delivery never re-trigger one. -/
theorem c2_exactly_once_handoff (total : Nat) (p1 p2 : List Nat)
    (h1 : validSubmission total p1) (h2 : validSubmission total p2) :
    (processSubmissions total true [p1, p2]).2 =
      [sortDedup (p1.filter (· < total))] ∧
    (∀ r ∈ (processSubmissions total true [p1, p2]).1,
      r.success = true ∧ r.status = 200) ∧
    (processSubmissions total true [p1, p2]).1.length = 2 ∧
    (∀ later : List (List Nat),
      (processSubmissions total true (p1 :: p2 :: later)).2 =
        [sortDedup (p1.filter (· < total))]) := by
  have key : ∀ later : List (List Nat),
      processSubmissions total true (p1 :: p2 :: later) =
        (⟨200, true, "提交成功，请返回终端。"⟩ ::
         ⟨200, true, "已接收选择，请返回终端。"⟩ ::
           (processSubmissions total false later).1,
         [sortDedup (p1.filter (· < total))]) := by
    intro later
    rw [processSubmissions_cons, submit_selection_valid_full total p1 h1]
    simp only
    rw [processSubmissions_cons, submit_selection_valid_empty total p2 h2]
    simp [processSubmissions_empty_slot]
  refine ⟨?_, ?_, ?_, ?_⟩
  · rw [key []]
  · intro r hr
    rw [key []] at hr
    simp only [processSubmissions_nil, List.mem_cons] at hr
    rcases hr with rfl | rfl | hr
    · exact ⟨rfl, rfl⟩
    · exact ⟨rfl, rfl⟩
    · simp at hr
  · rw [key []]
    rfl
  · intro later
    rw [key later]

/-- C2 witness: two concrete valid submissions over 3 tiles. -/
theorem c2_exactly_once_handoff_witness :
    (processSubmissions 3 true [[0], [1, 2]]).2 = [[0]] ∧
    (∀ r ∈ (processSubmissions 3 true [[0], [1, 2]]).1,
      r.success = true ∧ r.status = 200) ∧
    (processSubmissions 3 true [[0], [1, 2]]).1.length = 2 ∧
    (∀ later : List (List Nat),
      (processSubmissions 3 true ([0] :: [1, 2] :: later)).2 = [[0]]) :=
  c2_exactly_once_handoff 3 [0] [1, 2] (by decide) (by decide)

/-- C10.  A submission whose selections are empty after the in-range filter is
rejected with HTTP 400, does not consume the hand-off slot, and a later valid
submission in the same attempt is still delivered. -/
theorem c10_invalid_submission_keeps_slot (total : Nat) (slotFull : Bool)
    (bad good : List Nat) (hbad : ¬ validSubmission total bad)
    (hgood : validSubmission total good) :
    submit_selection total slotFull bad =
      (slotFull, ⟨400, false, "未选择任何有效图块"⟩, none) ∧
    (processSubmissions total true [bad, good]).2 =
      [sortDedup (good.filter (· < total))] := by
  have hbad' : sortDedup (bad.filter (· < total)) = [] := by
    by_contra hc
    exact hbad hc
  refine ⟨submit_selection_invalid total slotFull bad hbad', ?_⟩
  rw [processSubmissions_cons, submit_selection_invalid total true bad hbad']
  simp only
  rw [processSubmissions_cons, submit_selection_valid_full total good hgood]
  simp [processSubmissions_nil]

/-- C10 witness: an all-out-of-range submission then a valid one. -/
theorem c10_invalid_submission_keeps_slot_witness :
    submit_selection 3 true [7, 9] =
      (true, ⟨400, false, "未选择任何有效图块"⟩, none) ∧
    (processSubmissions 3 true [[7, 9], [2]]).2 = [[2]] :=
  c10_invalid_submission_keeps_slot 3 true [7, 9] [2] (by decide) (by decide)

/-! ## A minimal JSON value model (`serde_json::Value`) -/

/-- `serde_json::Value`, restricted to what the embedded code inspects. -/
inductive JVal where
  | null
  | bool (b : Bool)
  | num (n : Int)
  | str (s : List Char)
  | arr (xs : List JVal)
  | obj (fields : List (List Char × JVal))

/-- `Value::get(key)`: object field lookup, `None` on other variants. -/
def JVal.get (v : JVal) (key : List Char) : Option JVal :=
  match v with
  | .obj fields =>
    match fields.find? (fun f => f.1 = key) with
    | some f => some f.2
    | none => none
  | _ => none

/-- `Value::as_str`. -/
def JVal.asStr (v : JVal) : Option (List Char) :=
  match v with
  | .str s => some s
  | _ => none

/-! ## src/chat.rs — `send_chat` control flow

The HTTP call, JSON parsing and the challenge resolver are external effects;
they are supplied as oracles in `ChatEnv`, indexed by the attempt number.  The
loop body's stream forwarding (the 200 path) is modelled separately by
`forward_sse_payloads` below; here we model the per-attempt branching of
`send_chat` (status 418 handling, retry bound, error propagation) together with
an event trace recording requests, challenge invocations and the parse-error
log line. -/

/-- The part of `VqdSession` consumed by `send_chat`: the rotating token header
and the frontend version header. -/
structure VqdTokens where
  vqd_header : String
  fe_version : String
deriving DecidableEq, Repr

/-- One attempt's HTTP response (status and accumulated body). -/
structure ChatResp where
  status : Nat
  body : List Char
deriving DecidableEq, Repr

/-- Oracles for `send_chat`'s external calls: the response of each attempt,
`serde_json::from_str`, and `challenge::handle_challenge` (which can fail,
return `true` = solved, or `false`). -/
structure ChatEnv where
  response : Nat → ChatResp
  parseJson : List Char → Option JVal
  handleChallenge : Nat → JVal → Except Unit Bool

/-- Observable events of one `send_chat` call. -/
inductive ChatEvent where
  | requestSent (feVersion vqdHeader : String)
  | challengeInvoked (attempt : Nat)
  | parseErrorLogged (attempt : Nat)
deriving DecidableEq, Repr

/-- The result of `send_chat`: `Ok(ChatResponse)`, the retry-exhaustion error,
or a propagated challenge-resolver error. -/
inductive ChatOutcome where
  | response (status : Nat) (body : List Char)
  | retryExhausted
  | challengeError
deriving DecidableEq, Repr

/-- The `for attempt in 0..=MAX_RETRIES` loop of `chat::send_chat`.  Each
iteration sends the request with the session's (unchanged) token headers; on a
418 it parses the body and delegates to the resolver, retrying only when the
resolver reports the challenge solved; any other situation returns the
response as-is.  Falling off the loop is the retry-exhaustion error. -/
def sendChatLoop (env : ChatEnv) (vqd : VqdTokens) :
    List Nat → ChatOutcome × List ChatEvent
  | [] => (.retryExhausted, [])
  | attempt :: rest =>
    let resp := env.response attempt
    let evs0 := [ChatEvent.requestSent vqd.fe_version vqd.vqd_header]
    if resp.status = 418 then
      match env.parseJson resp.body with
      | some v =>
        match env.handleChallenge attempt v with
        | .error _ => (.challengeError, evs0 ++ [.challengeInvoked attempt])
        | .ok true =>
          let r := sendChatLoop env vqd rest
          (r.1, evs0 ++ ChatEvent.challengeInvoked attempt :: r.2)
        | .ok false =>
          (.response resp.status resp.body, evs0 ++ [.challengeInvoked attempt])
      | none =>
        (.response resp.status resp.body, evs0 ++ [.parseErrorLogged attempt])
    else (.response resp.status resp.body, evs0)

/-- `chat::send_chat` with `MAX_RETRIES = 2`: attempts `0..=2`. -/
def send_chat (env : ChatEnv) (vqd : VqdTokens) : ChatOutcome × List ChatEvent :=
  sendChatLoop env vqd [0, 1, 2]

/-- Attempt `k` triggers a retry exactly when it is a 418 whose body parses and
whose challenge the resolver reports solved. -/
def triggersRetry (env : ChatEnv) (k : Nat) : Prop :=
  (env.response k).status = 418 ∧
  ∃ v, env.parseJson (env.response k).body = some v ∧
    env.handleChallenge k v = Except.ok true

theorem sendChatLoop_nil (env : ChatEnv) (vqd : VqdTokens) :
    sendChatLoop env vqd [] = (.retryExhausted, []) := rfl

theorem sendChatLoop_not418 (env : ChatEnv) (vqd : VqdTokens) (k : Nat)
    (rest : List Nat) (h : (env.response k).status ≠ 418) :
    sendChatLoop env vqd (k :: rest) =
      (.response (env.response k).status (env.response k).body,
        [.requestSent vqd.fe_version vqd.vqd_header]) := by
  simp only [sendChatLoop]
  rw [if_neg h]

theorem sendChatLoop_parseFail (env : ChatEnv) (vqd : VqdTokens) (k : Nat)
    (rest : List Nat) (h : (env.response k).status = 418)
    (hp : env.parseJson (env.response k).body = none) :
    sendChatLoop env vqd (k :: rest) =
      (.response 418 (env.response k).body,
        [.requestSent vqd.fe_version vqd.vqd_header, .parseErrorLogged k]) := by
  simp only [sendChatLoop]
  rw [if_pos h]
  simp only [hp, h]
  rfl

theorem sendChatLoop_unsolved (env : ChatEnv) (vqd : VqdTokens) (k : Nat)
    (rest : List Nat) (v : JVal) (h : (env.response k).status = 418)
    (hp : env.parseJson (env.response k).body = some v)
    (hc : env.handleChallenge k v = Except.ok false) :
    sendChatLoop env vqd (k :: rest) =
      (.response 418 (env.response k).body,
        [.requestSent vqd.fe_version vqd.vqd_header, .challengeInvoked k]) := by
  simp only [sendChatLoop]
  rw [if_pos h]
  simp only [hp, hc, h]
  rfl

theorem sendChatLoop_challengeError (env : ChatEnv) (vqd : VqdTokens) (k : Nat)
    (rest : List Nat) (v : JVal) (e : Unit) (h : (env.response k).status = 418)
    (hp : env.parseJson (env.response k).body = some v)
    (hc : env.handleChallenge k v = Except.error e) :
    sendChatLoop env vqd (k :: rest) =
      (.challengeError,
        [.requestSent vqd.fe_version vqd.vqd_header, .challengeInvoked k]) := by
  simp only [sendChatLoop]
  rw [if_pos h]
  simp only [hp, hc]
  rfl

theorem sendChatLoop_solved (env : ChatEnv) (vqd : VqdTokens) (k : Nat)
    (rest : List Nat) (v : JVal) (h : (env.response k).status = 418)
    (hp : env.parseJson (env.response k).body = some v)
    (hc : env.handleChallenge k v = Except.ok true) :
    sendChatLoop env vqd (k :: rest) =
      ((sendChatLoop env vqd rest).1,
        ChatEvent.requestSent vqd.fe_version vqd.vqd_header ::
          ChatEvent.challengeInvoked k :: (sendChatLoop env vqd rest).2) := by
  simp only [sendChatLoop]
  rw [if_pos h]
  simp only [hp, hc]
  rfl

/-- Recognizer for request events in the trace. -/
def isRequestSent : ChatEvent → Bool
  | .requestSent _ _ => true
  | _ => false

theorem sendChatLoop_trace (env : ChatEnv) (vqd : VqdTokens) :
    ∀ l : List Nat,
      ((sendChatLoop env vqd l).2.countP isRequestSent ≤ l.length) ∧
      (∀ f h, ChatEvent.requestSent f h ∈ (sendChatLoop env vqd l).2 →
        f = vqd.fe_version ∧ h = vqd.vqd_header) := by
  intro l
  induction l with
  | nil => simp [sendChatLoop_nil]
  | cons k rest ih =>
    by_cases h418 : (env.response k).status = 418
    · cases hp : env.parseJson (env.response k).body with
      | none =>
        rw [sendChatLoop_parseFail env vqd k rest h418 hp]
        refine ⟨?_, ?_⟩
        · simp [List.countP_cons, isRequestSent]
        · intro f h hmem
          simp only [List.mem_cons] at hmem
          rcases hmem with heq | heq | heq
          · cases heq; exact ⟨rfl, rfl⟩
          · cases heq
          · simp at heq
      | some v =>
        cases hc : env.handleChallenge k v with
        | error e =>
          rw [sendChatLoop_challengeError env vqd k rest v e h418 hp hc]
          refine ⟨?_, ?_⟩
          · simp [List.countP_cons, isRequestSent]
          · intro f h hmem
            simp only [List.mem_cons] at hmem
            rcases hmem with heq | heq | heq
            · cases heq; exact ⟨rfl, rfl⟩
            · cases heq
            · simp at heq
        | ok b =>
          cases b with
          | false =>
            rw [sendChatLoop_unsolved env vqd k rest v h418 hp hc]
            refine ⟨?_, ?_⟩
            · simp [List.countP_cons, isRequestSent]
            · intro f h hmem
              simp only [List.mem_cons] at hmem
              rcases hmem with heq | heq | heq
              · cases heq; exact ⟨rfl, rfl⟩
              · cases heq
              · simp at heq
          | true =>
            rw [sendChatLoop_solved env vqd k rest v h418 hp hc]
            refine ⟨?_, ?_⟩
            · have h1 := ih.1
              simp [List.countP_cons, isRequestSent]
              omega
            · intro f h hmem
              simp only [List.mem_cons] at hmem
              rcases hmem with heq | heq | hmem
              · cases heq; exact ⟨rfl, rfl⟩
              · cases heq
              · exact ih.2 f h hmem
    · rw [sendChatLoop_not418 env vqd k rest h418]
      refine ⟨?_, ?_⟩
      · simp [List.countP_cons, isRequestSent]
      · intro f h hmem
        simp only [List.mem_cons] at hmem
        rcases hmem with heq | heq
        · cases heq; exact ⟨rfl, rfl⟩
        · simp at heq

/-- C1.  A 418 response whose body fails JSON parsing: `send_chat` logs the
dedicated parse-error event (a distinct error surface), never invokes the
challenge resolver, and returns the 418 response as-is. -/
theorem c1_unparseable_418_no_challenge (env : ChatEnv) (vqd : VqdTokens)
    (h418 : (env.response 0).status = 418)
    (hp : env.parseJson (env.response 0).body = none) :
    send_chat env vqd =
      (.response 418 (env.response 0).body,
        [.requestSent vqd.fe_version vqd.vqd_header, .parseErrorLogged 0]) ∧
    ChatEvent.parseErrorLogged 0 ∈ (send_chat env vqd).2 ∧
    (∀ k, ChatEvent.challengeInvoked k ∉ (send_chat env vqd).2) := by
  have key : send_chat env vqd =
      (.response 418 (env.response 0).body,
        [.requestSent vqd.fe_version vqd.vqd_header, .parseErrorLogged 0]) :=
    sendChatLoop_parseFail env vqd 0 [1, 2] h418 hp
  refine ⟨key, ?_, ?_⟩
  · rw [key]
    simp
  · intro k
    rw [key]
    simp

/-- C1 witness: a concrete environment whose first response is a 418 with an
unparseable body. -/
theorem c1_unparseable_418_no_challenge_witness :
    (send_chat ⟨fun _ => ⟨418, ['x']⟩, fun _ => none, fun _ _ => .ok false⟩
        ⟨"vqdh", "fev"⟩ =
      (.response 418 ['x'],
        [.requestSent "fev" "vqdh", .parseErrorLogged 0]) ∧
    ChatEvent.parseErrorLogged 0 ∈
      (send_chat ⟨fun _ => ⟨418, ['x']⟩, fun _ => none, fun _ _ => .ok false⟩
        ⟨"vqdh", "fev"⟩).2 ∧
    (∀ k, ChatEvent.challengeInvoked k ∉
      (send_chat ⟨fun _ => ⟨418, ['x']⟩, fun _ => none, fun _ _ => .ok false⟩
        ⟨"vqdh", "fev"⟩).2)) :=
  c1_unparseable_418_no_challenge
    ⟨fun _ => ⟨418, ['x']⟩, fun _ => none, fun _ _ => .ok false⟩
    ⟨"vqdh", "fev"⟩ rfl rfl

/-- C4.  `send_chat` retry semantics: a non-418 (including 200) is returned
as-is after one request; an unresolved 418 (resolver failure) is returned
as-is; a solved 418 retries the whole send with the same token; three solved
418s exhaust the retries giving the `retryExhausted` error, which is distinct
from any `Ok` response; every request of a call carries the same token
headers, and at most 3 requests are made. -/
theorem c4_send_chat_retry_semantics (env : ChatEnv) (vqd : VqdTokens) :
    ((env.response 0).status ≠ 418 →
      send_chat env vqd =
        (.response (env.response 0).status (env.response 0).body,
          [.requestSent vqd.fe_version vqd.vqd_header])) ∧
    (∀ v, (env.response 0).status = 418 →
      env.parseJson (env.response 0).body = some v →
      env.handleChallenge 0 v = Except.ok false →
      send_chat env vqd =
        (.response 418 (env.response 0).body,
          [.requestSent vqd.fe_version vqd.vqd_header, .challengeInvoked 0])) ∧
    (triggersRetry env 0 →
      send_chat env vqd =
        ((sendChatLoop env vqd [1, 2]).1,
          ChatEvent.requestSent vqd.fe_version vqd.vqd_header ::
            ChatEvent.challengeInvoked 0 :: (sendChatLoop env vqd [1, 2]).2)) ∧
    (triggersRetry env 0 → triggersRetry env 1 → triggersRetry env 2 →
      send_chat env vqd =
        (.retryExhausted,
          [.requestSent vqd.fe_version vqd.vqd_header, .challengeInvoked 0,
           .requestSent vqd.fe_version vqd.vqd_header, .challengeInvoked 1,
           .requestSent vqd.fe_version vqd.vqd_header, .challengeInvoked 2])) ∧
    (∀ s b, (ChatOutcome.retryExhausted : ChatOutcome) ≠ .response s b) ∧
    ((send_chat env vqd).2.countP isRequestSent ≤ 3 ∧
      ∀ f h, ChatEvent.requestSent f h ∈ (send_chat env vqd).2 →
        f = vqd.fe_version ∧ h = vqd.vqd_header) := by
  refine ⟨?_, ?_, ?_, ?_, ?_, ?_⟩
  · intro h
    exact sendChatLoop_not418 env vqd 0 [1, 2] h
  · intro v h hp hc
    exact sendChatLoop_unsolved env vqd 0 [1, 2] v h hp hc
  · rintro ⟨h, v, hp, hc⟩
    exact sendChatLoop_solved env vqd 0 [1, 2] v h hp hc
  · rintro ⟨h0, v0, hp0, hc0⟩ ⟨h1, v1, hp1, hc1⟩ ⟨h2, v2, hp2, hc2⟩
    rw [show send_chat env vqd = sendChatLoop env vqd [0, 1, 2] from rfl,
      sendChatLoop_solved env vqd 0 [1, 2] v0 h0 hp0 hc0,
      sendChatLoop_solved env vqd 1 [2] v1 h1 hp1 hc1,
      sendChatLoop_solved env vqd 2 [] v2 h2 hp2 hc2,
      sendChatLoop_nil]
  · intro s b h
    cases h
  · exact sendChatLoop_trace env vqd [0, 1, 2]

/-- C4 witness: an environment whose three responses are solved 418s, hitting
the retry-exhaustion branch, plus a non-418 environment returned as-is. -/
theorem c4_send_chat_retry_semantics_witness :
    send_chat
        ⟨fun _ => ⟨418, ['x']⟩, fun _ => some JVal.null, fun _ _ => .ok true⟩
        ⟨"vqdh", "fev"⟩ =
      (.retryExhausted,
        [.requestSent "fev" "vqdh", .challengeInvoked 0,
         .requestSent "fev" "vqdh", .challengeInvoked 1,
         .requestSent "fev" "vqdh", .challengeInvoked 2]) :=
  (c4_send_chat_retry_semantics
      ⟨fun _ => ⟨418, ['x']⟩, fun _ => some JVal.null, fun _ _ => .ok true⟩
      ⟨"vqdh", "fev"⟩).2.2.2.1
    ⟨rfl, JVal.null, rfl, rfl⟩ ⟨rfl, JVal.null, rfl, rfl⟩
    ⟨rfl, JVal.null, rfl, rfl⟩

/-! ## src/model/mod.rs -/

/-- `model::EvaluatedHashes`: the structured result of the sandboxed script. -/
structure EvaluatedHashes where
  client_hashes : List String
  server_hashes : List String
  signals : JVal
  meta : JVal

/-! ## src/js/mod.rs — the sandbox executor's pump loop

`js::evaluate` drives the Boa context with a polling loop: run pending jobs,
read the two sentinel globals, and either return or sleep 10ms and repeat.
The engine is external, so each iteration's observation of the sentinels (and
of the wall clock against the 5s deadline) is an oracle `pollObs`; so is the
`serde_json` deserialization of the stringified result. -/

/-- What one loop iteration observes after `context.run_jobs()`:
whether `__duckai_error` is set (neither undefined nor null) and its
stringified message, whether `__duckai_result` is set and its
`JSON.stringify` image, and whether `Instant::now() > deadline`. -/
structure PollObs where
  errSet : Bool
  errMsg : List Char
  resSet : Bool
  resJson : List Char
  nowPastDeadline : Bool

/-- The four ways `js::evaluate` can finish. -/
inductive EvalOutcome where
  | scriptError (msg : List Char)
  | ok (hashes : EvaluatedHashes)
  | deserializationError
  | timeoutError

/-- `MAX_POLL_ITERATIONS` in `js/mod.rs`. -/
def MAX_POLL_ITERATIONS : Nat := 500

/-- The pump loop of `js::evaluate`, from iteration counter `iterations`:
error sentinel set → `ScriptError`; else result sentinel set → deserialize
(`none` → deserialization error); else deadline or iteration cap exceeded →
timeout; otherwise sleep and poll again with `iterations + 1`. -/
def evaluateFrom (env : Nat → PollObs)
    (deser : List Char → Option EvaluatedHashes) (iterations : Nat) :
    EvalOutcome :=
  let o := env iterations
  if o.errSet then .scriptError o.errMsg
  else if o.resSet then
    match deser o.resJson with
    | some h => .ok h
    | none => .deserializationError
  else if o.nowPastDeadline || MAX_POLL_ITERATIONS ≤ iterations then
    .timeoutError
  else evaluateFrom env deser (iterations + 1)
termination_by MAX_POLL_ITERATIONS - iterations
decreasing_by
  rename_i hguard
  simp only [MAX_POLL_ITERATIONS, Bool.or_eq_true, decide_eq_true_eq,
    not_or] at hguard ⊢
  omega

/-- `js::evaluate`: run the pump loop from iteration 0. -/
def evaluate (env : Nat → PollObs)
    (deser : List Char → Option EvaluatedHashes) : EvalOutcome :=
  evaluateFrom env deser 0

/-- The decision one loop iteration would take (`none` = keep polling).  This
is the claim's case rule: error sentinel first, then result sentinel, then the
deadline / iteration-cap check. -/
def decideAt (env : Nat → PollObs)
    (deser : List Char → Option EvaluatedHashes) (k : Nat) :
    Option EvalOutcome :=
  let o := env k
  if o.errSet then some (.scriptError o.errMsg)
  else if o.resSet then
    match deser o.resJson with
    | some h => some (.ok h)
    | none => some .deserializationError
  else if o.nowPastDeadline || MAX_POLL_ITERATIONS ≤ k then
    some .timeoutError
  else none

theorem evaluateFrom_spec (env : Nat → PollObs)
    (deser : List Char → Option EvaluatedHashes) :
    ∀ n i, 500 - i ≤ n → i ≤ 500 →
      ∃ k, i ≤ k ∧ k ≤ 500 ∧
        (∀ j, i ≤ j → j < k → decideAt env deser j = none) ∧
        decideAt env deser k = some (evaluateFrom env deser i) := by
  intro n
  induction n with
  | zero =>
    intro i hn hi
    have hi500 : i = 500 := by omega
    subst hi500
    refine ⟨500, le_refl _, le_refl _, fun j h1 h2 => by omega, ?_⟩
    rw [evaluateFrom, decideAt]
    simp only [MAX_POLL_ITERATIONS]
    split_ifs <;> first
      | rfl
      | (cases deser (env 500).resJson <;> simp)
      | simp_all
  | succ n ih =>
    intro i hn hi
    by_cases herr : (env i).errSet
    · refine ⟨i, le_refl _, hi, fun j h1 h2 => by omega, ?_⟩
      rw [evaluateFrom, decideAt]
      simp [herr]
    · by_cases hres : (env i).resSet
      · refine ⟨i, le_refl _, hi, fun j h1 h2 => by omega, ?_⟩
        rw [evaluateFrom, decideAt]
        simp only [herr, hres, Bool.false_eq_true, if_false, if_true]
        cases deser (env i).resJson <;> simp
      · by_cases hto : (env i).nowPastDeadline = true ∨ MAX_POLL_ITERATIONS ≤ i
        · refine ⟨i, le_refl _, hi, fun j h1 h2 => by omega, ?_⟩
          rw [evaluateFrom, decideAt]
          simp only [herr, hres, Bool.false_eq_true, if_false]
          rcases hto with hto | hto <;> simp [hto]
        · push_neg at hto
          have hi' : i < 500 := by
            simpa [MAX_POLL_ITERATIONS] using hto.2
          obtain ⟨k, hk1, hk2, hnone, hdec⟩ :=
            ih (i + 1) (by omega) (by omega)
          have hstep : evaluateFrom env deser i = evaluateFrom env deser (i + 1) := by
            rw [evaluateFrom]
            simp [herr, hres, hto.1, MAX_POLL_ITERATIONS, Nat.not_le.mpr hi']
          refine ⟨k, by omega, hk2, ?_, by rw [hstep]; exact hdec⟩
          intro j h1 h2
          rcases Nat.eq_or_lt_of_le h1 with rfl | h1'
          · rw [decideAt]
            simp [herr, hres, hto.1, MAX_POLL_ITERATIONS, Nat.not_le.mpr hi']
          · exact hnone j h1' h2

/-- C6.  The pump loop always terminates within the iteration cap: there is a
first iteration `k ≤ 500` at which the loop decides, every earlier iteration
decides nothing, and the decision at `k` — error sentinel → `ScriptError` with
the stringified message; else result sentinel → deserialized result (malformed
→ deserialization error); else deadline (5s) or iteration cap (500) exceeded →
timeout — is exactly what `evaluate` returns. -/
theorem c6_pump_loop_terminates (env : Nat → PollObs)
    (deser : List Char → Option EvaluatedHashes) :
    ∃ k, k ≤ 500 ∧
      (∀ j < k, decideAt env deser j = none) ∧
      decideAt env deser k = some (evaluate env deser) := by
  obtain ⟨k, -, hk2, hnone, hdec⟩ :=
    evaluateFrom_spec env deser 500 0 (by omega) (by omega)
  exact ⟨k, hk2, fun j hj => hnone j (Nat.zero_le j) hj, hdec⟩

/-! ## src/challenge.rs — the resolver (`handle_challenge`)

Network downloads, the local web surface and the verification endpoint are
external; `ChallengeEnv` supplies their outcomes (downloads per tile index,
web-server start / received selection / CLI input / verification result per
attempt number).  The trace records the observable side steps: tile download
requests, interactive-surface starts, CLI prompts and verification calls. -/

/-- Rust `str::trim`. -/
def rustTrim (s : List Char) : List Char :=
  ((s.dropWhile rustIsWhitespace).reverse.dropWhile rustIsWhitespace).reverse

/-- `challenge::extract_tiles`: read the `p` field as a string (default empty),
split on hyphens, drop pieces that trim to empty, trim the rest. -/
def extract_tiles (value : JVal) : List (List Char) :=
  ((splitOnPred (· = '-')
      (((value.get ("p".data)).bind JVal.asStr).getD [])).filter
    (fun s => ¬ rustTrim s = [])).map rustTrim

/-- `challenge = payload.get("cd").unwrap_or(payload)`. -/
def challengeOf (payload : JVal) : JVal :=
  (payload.get ("cd".data)).getD payload

/-- Oracles for the resolver's external effects. -/
structure ChallengeEnv where
  downloadOk : Nat → Bool
  webStartOk : Nat → Bool
  webSelection : Nat → List Nat
  promptInput : Nat → List Char
  verifyResult : Nat → Except Unit Bool

/-- Observable steps of one `handle_challenge` call. -/
inductive ChallengeEvent where
  | tileDownloadRequested (index : Nat) (ok : Bool)
  | interactiveStarted (attempt : Nat)
  | promptShown (attempt : Nat)
  | verifySubmitted (attempt : Nat) (ids : List (List Char))
deriving DecidableEq, Repr

/-- `challenge::ChallengeAsset` (the on-disk path is
`{ordinal:02}_{tileId}.jpg` under `duckai_challenge/`, determined by these two
fields). -/
structure ChallengeAsset where
  index : Nat
  tile_id : List Char
deriving DecidableEq, Repr

/-- `challenge::save_challenge_assets`: request every tile in order; a failed
download is skipped, a successful one becomes an asset. -/
def save_challenge_assets (env : ChallengeEnv) (tiles : List (List Char)) :
    List ChallengeAsset × List ChallengeEvent :=
  (((tiles.enum).filter (fun p => env.downloadOk p.1)).map
      (fun p => ⟨p.1, p.2⟩),
   (tiles.enum).map
      (fun p => ChallengeEvent.tileDownloadRequested p.1 (env.downloadOk p.1)))

/-- One iteration's selection source: the web surface when it starts (its
failure permanently falls back to the CLI prompt, tokenized by
`parse_tile_selection`). -/
def selectionStep (env : ChallengeEnv) (tiles : List (List Char))
    (attemptNo : Nat) (use_web : Bool) : List Nat × List ChallengeEvent × Bool :=
  if use_web then
    if env.webStartOk attemptNo then
      (env.webSelection attemptNo, [ChallengeEvent.interactiveStarted attemptNo], true)
    else
      (parse_tile_selection (env.promptInput attemptNo) tiles.length,
       [ChallengeEvent.promptShown attemptNo], false)
  else
    (parse_tile_selection (env.promptInput attemptNo) tiles.length,
     [ChallengeEvent.promptShown attemptNo], false)

/-- The attempt loop of `challenge::handle_challenge` (`MAX_ATTEMPTS = 3`):
empty or fully out-of-range selections count as failed attempts; otherwise the
deduplicated sorted in-range indices are mapped to tile ids and verified; a
verification parse failure propagates as an error, success returns `true`, and
exhausting the attempts returns `false`. -/
def challengeLoop (env : ChallengeEnv) (tiles : List (List Char))
    (attempt : Nat) (use_web : Bool) : Except Unit Bool × List ChallengeEvent :=
  let s := selectionStep env tiles (attempt + 1) use_web
  if s.1 = [] then
    if 3 ≤ attempt + 1 then (Except.ok false, s.2.1)
    else
      let r := challengeLoop env tiles (attempt + 1) s.2.2
      (r.1, s.2.1 ++ r.2)
  else
    if s.1.filter (· < tiles.length) = [] then
      if 3 ≤ attempt + 1 then (Except.ok false, s.2.1)
      else
        let r := challengeLoop env tiles (attempt + 1) s.2.2
        (r.1, s.2.1 ++ r.2)
    else
      let ids := (sortDedup (s.1.filter (· < tiles.length))).map
        (fun i => tiles.getD i [])
      match env.verifyResult (attempt + 1) with
      | Except.error e =>
        (Except.error e, s.2.1 ++ [ChallengeEvent.verifySubmitted (attempt + 1) ids])
      | Except.ok true =>
        (Except.ok true, s.2.1 ++ [ChallengeEvent.verifySubmitted (attempt + 1) ids])
      | Except.ok false =>
        if 3 ≤ attempt + 1 then
          (Except.ok false, s.2.1 ++ [ChallengeEvent.verifySubmitted (attempt + 1) ids])
        else
          let r := challengeLoop env tiles (attempt + 1) s.2.2
          (r.1, s.2.1 ++ ChallengeEvent.verifySubmitted (attempt + 1) ids :: r.2)
termination_by 3 - attempt
decreasing_by all_goals omega

/-- `challenge::handle_challenge`: extract tile ids (empty → fail closed with
no downloads and no interactive step), download tiles (no successes → fail
closed), then run the bounded attempt loop starting with the web surface. -/
def handle_challenge (env : ChallengeEnv) (payload : JVal) :
    Except Unit Bool × List ChallengeEvent :=
  if extract_tiles (challengeOf payload) = [] then (Except.ok false, [])
  else if (save_challenge_assets env (extract_tiles (challengeOf payload))).1 = [] then
    (Except.ok false, (save_challenge_assets env (extract_tiles (challengeOf payload))).2)
  else
    ((challengeLoop env (extract_tiles (challengeOf payload)) 0 true).1,
     (save_challenge_assets env (extract_tiles (challengeOf payload))).2 ++
       (challengeLoop env (extract_tiles (challengeOf payload)) 0 true).2)

/-- C7.  A challenge payload whose pack field yields an empty tile-id list
resolves to `false` immediately, with an empty trace: no tile download and no
interactive step is attempted. -/
theorem c7_empty_tile_list_fails_closed (env : ChallengeEnv) (payload : JVal)
    (h : extract_tiles (challengeOf payload) = []) :
    handle_challenge env payload = (Except.ok false, []) ∧
    (∀ e, e ∈ (handle_challenge env payload).2 → False) := by
  have key : handle_challenge env payload = (Except.ok false, []) := by
    unfold handle_challenge
    rw [if_pos h]
  refine ⟨key, ?_⟩
  intro e he
  rw [key] at he
  simp at he

/-- C7 witness: a simulated 418 payload whose `p` field is the empty string. -/
theorem c7_empty_tile_list_fails_closed_witness :
    handle_challenge
        ⟨fun _ => true, fun _ => true, fun _ => [], fun _ => [],
          fun _ => Except.ok false⟩
        (JVal.obj [("p".data, JVal.str [])]) = (Except.ok false, []) :=
  (c7_empty_tile_list_fails_closed
    ⟨fun _ => true, fun _ => true, fun _ => [], fun _ => [],
      fun _ => Except.ok false⟩
    (JVal.obj [("p".data, JVal.str [])]) (by rfl)).1

/-! ## src/util/mod.rs — `sha256_base64`, and src/vqd.rs — the hashing step

`sha256_base64` wraps the `sha2` crate and the `base64` crate; both are
implemented here executably (words as `Nat` reduced mod `2^32`). -/

/-- Reduce to a 32-bit word. -/
def w32 (x : Nat) : Nat := x % 4294967296

/-- 32-bit right rotation. -/
def rotr32 (n x : Nat) : Nat := w32 ((x >>> n) ||| (x <<< (32 - n)))

def shaCh (x y z : Nat) : Nat := (x &&& y) ^^^ ((x ^^^ 0xFFFFFFFF) &&& z)

def shaMaj (x y z : Nat) : Nat := (x &&& y) ^^^ (x &&& z) ^^^ (y &&& z)

def bigSigma0 (x : Nat) : Nat := rotr32 2 x ^^^ rotr32 13 x ^^^ rotr32 22 x

def bigSigma1 (x : Nat) : Nat := rotr32 6 x ^^^ rotr32 11 x ^^^ rotr32 25 x

def smallSigma0 (x : Nat) : Nat := rotr32 7 x ^^^ rotr32 18 x ^^^ (x >>> 3)

def smallSigma1 (x : Nat) : Nat := rotr32 17 x ^^^ rotr32 19 x ^^^ (x >>> 10)

/-- The SHA-256 round constants, in eight groups of eight. -/
def shaK : List Nat :=
  [0x428a2f98, 0x71374491, 0xb5c0fbcf, 0xe9b5dba5,
   0x3956c25b, 0x59f111f1, 0x923f82a4, 0xab1c5ed5] ++
  [0xd807aa98, 0x12835b01, 0x243185be, 0x550c7dc3,
   0x72be5d74, 0x80deb1fe, 0x9bdc06a7, 0xc19bf174] ++
  [0xe49b69c1, 0xefbe4786, 0x0fc19dc6, 0x240ca1cc,
   0x2de92c6f, 0x4a7484aa, 0x5cb0a9dc, 0x76f988da] ++
  [0x983e5152, 0xa831c66d, 0xb00327c8, 0xbf597fc7,
   0xc6e00bf3, 0xd5a79147, 0x06ca6351, 0x14292967] ++
  [0x27b70a85, 0x2e1b2138, 0x4d2c6dfc, 0x53380d13,
   0x650a7354, 0x766a0abb, 0x81c2c92e, 0x92722c85] ++
  [0xa2bfe8a1, 0xa81a664b, 0xc24b8b70, 0xc76c51a3,
   0xd192e819, 0xd6990624, 0xf40e3585, 0x106aa070] ++
  [0x19a4c116, 0x1e376c08, 0x2748774c, 0x34b0bcb5,
   0x391c0cb3, 0x4ed8aa4a, 0x5b9cca4f, 0x682e6ff3] ++
  [0x748f82ee, 0x78a5636f, 0x84c87814, 0x8cc70208,
   0x90befffa, 0xa4506ceb, 0xbef9a3f7, 0xc67178f2]

/-- The SHA-256 initial state. -/
def shaH0 : List Nat :=
  [0x6a09e667, 0xbb67ae85, 0x3c6ef372, 0xa54ff53a,
   0x510e527f, 0x9b05688c, 0x1f83d9ab, 0x5be0cd19]

/-- Big-endian byte expansion of `v` into `n` bytes. -/
def beBytes (n v : Nat) : List Nat :=
  (List.range n).map (fun i => (v >>> (8 * (n - 1 - i))) % 256)

/-- SHA-256 message padding. -/
def sha256Pad (msg : List Nat) : List Nat :=
  msg ++ 0x80 :: List.replicate ((119 - msg.length % 64) % 64) 0 ++
    beBytes 8 (8 * msg.length)

/-- Split a byte list into 64-byte chunks (fuel-driven so that the kernel can
evaluate it; `fuel = l.length` always suffices since every step consumes at
least one byte). -/
def chunks64Fuel : Nat → List Nat → List (List Nat)
  | 0, _ => []
  | _, [] => []
  | fuel + 1, l => l.take 64 :: chunks64Fuel fuel (l.drop 64)

/-- Split a byte list into 64-byte chunks. -/
def chunks64 (l : List Nat) : List (List Nat) := chunks64Fuel l.length l

/-- The 16 initial 32-bit big-endian words of a 64-byte chunk. -/
def wordsOfChunk (chunk : List Nat) : List Nat :=
  (List.range 16).map (fun i =>
    (chunk.getD (4 * i) 0) <<< 24 ||| (chunk.getD (4 * i + 1) 0) <<< 16 |||
    (chunk.getD (4 * i + 2) 0) <<< 8 ||| chunk.getD (4 * i + 3) 0)

/-- Extend the message schedule to 64 words (fuel-driven; 64 steps always
suffice). -/
def buildWFuel : Nat → List Nat → List Nat
  | 0, w => w
  | fuel + 1, w =>
    if 64 ≤ w.length then w
    else
      buildWFuel fuel (w ++ [w32 (smallSigma1 (w.getD (w.length - 2) 0) +
        w.getD (w.length - 7) 0 + smallSigma0 (w.getD (w.length - 15) 0) +
        w.getD (w.length - 16) 0)])

/-- Extend the message schedule to 64 words. -/
def buildW (w : List Nat) : List Nat := buildWFuel 64 w

/-- One SHA-256 compression round (state is the 8-word register file). -/
def shaRound (state : List Nat) (kw : Nat × Nat) : List Nat :=
  let a := state.getD 0 0
  let b := state.getD 1 0
  let c := state.getD 2 0
  let d := state.getD 3 0
  let e := state.getD 4 0
  let f := state.getD 5 0
  let g := state.getD 6 0
  let h := state.getD 7 0
  let t1 := w32 (h + bigSigma1 e + shaCh e f g + kw.1 + kw.2)
  let t2 := w32 (bigSigma0 a + shaMaj a b c)
  [w32 (t1 + t2), a, b, c, w32 (d + t1), e, f, g]

/-- Compress one 64-byte chunk into the running state. -/
def processChunk (state : List Nat) (chunk : List Nat) : List Nat :=
  let sched := buildW (wordsOfChunk chunk)
  let final := (shaK.zip sched).foldl shaRound state
  List.zipWith (fun x y => w32 (x + y)) state final

/-- SHA-256 of a byte list, as the 32 digest bytes. -/
def sha256Bytes (msg : List Nat) : List Nat :=
  ((chunks64 (sha256Pad msg)).foldl processChunk shaH0).flatMap (beBytes 4)

/-- The standard Base64 alphabet. -/
def b64Alphabet : List Char :=
  "ABCDEFGHIJKLMNOPQRSTUVWXYZabcdefghijklmnopqrstuvwxyz0123456789+/".data

/-- Standard Base64 encoding with `=` padding (`base64::STANDARD`). -/
def base64Encode : List Nat → List Char
  | [] => []
  | [a] =>
    [b64Alphabet.getD (a >>> 2) 'A', b64Alphabet.getD ((a &&& 0x3) <<< 4) 'A',
     '=', '=']
  | [a, b] =>
    [b64Alphabet.getD (a >>> 2) 'A',
     b64Alphabet.getD (((a &&& 0x3) <<< 4) ||| (b >>> 4)) 'A',
     b64Alphabet.getD ((b &&& 0xF) <<< 2) 'A', '=']
  | a :: b :: c :: rest =>
    b64Alphabet.getD (a >>> 2) 'A' ::
    b64Alphabet.getD (((a &&& 0x3) <<< 4) ||| (b >>> 4)) 'A' ::
    b64Alphabet.getD (((b &&& 0xF) <<< 2) ||| (c >>> 6)) 'A' ::
    b64Alphabet.getD (c &&& 0x3F) 'A' :: base64Encode rest

/-- UTF-8 encoding of one scalar value. -/
def utf8EncodeChar (c : Char) : List Nat :=
  let n := c.toNat
  if n < 0x80 then [n]
  else if n < 0x800 then [0xC0 ||| (n >>> 6), 0x80 ||| (n &&& 0x3F)]
  else if n < 0x10000 then
    [0xE0 ||| (n >>> 12), 0x80 ||| ((n >>> 6) &&& 0x3F), 0x80 ||| (n &&& 0x3F)]
  else
    [0xF0 ||| (n >>> 18), 0x80 ||| ((n >>> 12) &&& 0x3F),
     0x80 ||| ((n >>> 6) &&& 0x3F), 0x80 ||| (n &&& 0x3F)]

/-- The UTF-8 bytes of a string (what `sha256_base64(value.as_ref())` hashes). -/
def utf8Bytes (s : String) : List Nat := s.data.flatMap utf8EncodeChar

/-- `util::sha256_base64`: SHA-256 the bytes, Base64-encode the digest. -/
def sha256_base64 (s : String) : String :=
  String.mk (base64Encode (sha256Bytes (utf8Bytes s)))

/-- The hashing step of `vqd::prepare_session`:
`eval.client_hashes.iter().map(sha256_base64).collect()`. -/
def hashed_client (eval : EvaluatedHashes) : List String :=
  eval.client_hashes.map sha256_base64

set_option maxRecDepth 100000 in
/-- C5.  `hashedClientHashes` preserves the length and order of the sandbox's
`clientHashes`, each entry being the standard Base64 encoding of the SHA-256
digest of the corresponding raw entry; the implementation meets the
repository's own test vector for `"hello"`. -/
theorem c5_hashed_client_hashes (eval : EvaluatedHashes) :
    (hashed_client eval).length = eval.client_hashes.length ∧
    hashed_client eval = eval.client_hashes.map
      (fun v => String.mk (base64Encode (sha256Bytes (utf8Bytes v)))) ∧
    (∀ i, i < eval.client_hashes.length →
      (hashed_client eval).getD i "" =
        sha256_base64 (eval.client_hashes.getD i "")) ∧
    sha256_base64 "hello" = "LPJNul+wow4m6DsqxbninhsWHlwfp0JecwQzYpOLmCQ=" := by
  refine ⟨List.length_map _ _, rfl, ?_, by decide⟩
  intro i hi
  have hlen : i < (hashed_client eval).length := by
    simpa [hashed_client] using hi
  rw [List.getD_eq_getElem _ _ hlen, List.getD_eq_getElem _ _ hi]
  simp [hashed_client]

/-- C5 witness: a session whose sandbox produced one client hash. -/
theorem c5_hashed_client_hashes_witness :
    (hashed_client ⟨["hello"], [], JVal.null, JVal.null⟩).getD 0 "" =
      sha256_base64 "hello" :=
  (c5_hashed_client_hashes ⟨["hello"], [], JVal.null, JVal.null⟩).2.2.1 0
    (by decide)

/-! ## src/chat.rs — SSE frame extraction and forwarding

`forward_sse_payloads` appends each network chunk to a rolling buffer and
repeatedly extracts complete blank-line-delimited frames
(`extract_event_block`, recognizing `\r\n\r\n` first, then `\n\n`), emitting
the `data:`-prefixed lines of each frame (`emit_event_block`).  Strings are
`List Char`; the sink is modelled by returning the emitted payloads in order
(the claims concern the always-alive-receiver path). -/

/-- The CRLFCRLF frame terminator. -/
def crlfcrlfPat : List Char := ['\r', '\n', '\r', '\n']

/-- The LFLF frame terminator. -/
def lflfPat : List Char := ['\n', '\n']

/-- Split on `'\n'`: the complete lines, and the trailing not-yet-terminated
piece. -/
def splitLF : List Char → List (List Char) × List Char
  | [] => ([], [])
  | c :: cs =>
    if c = '\n' then ([] :: (splitLF cs).1, (splitLF cs).2)
    else consFirst c (splitLF cs)
where
  /-- Prepend a character to the first line (or to the trailing piece when no
  line is complete). -/
  consFirst (c : Char) (r : List (List Char) × List Char) :
      List (List Char) × List Char :=
    match r.1 with
    | [] => ([], c :: r.2)
    | l :: rest => ((c :: l) :: rest, r.2)

/-- How the lines of `a ++ b` arise from those of `a` and `b`: `a`'s trailing
piece merges into `b`'s first line. -/
def glueLines (pa : List Char) (r : List (List Char) × List Char) :
    List (List Char) × List Char :=
  match r.1 with
  | [] => ([], pa ++ r.2)
  | l :: rest => ((pa ++ l) :: rest, r.2)

theorem consFirst_glueLines (c : Char) (pa : List Char)
    (r : List (List Char) × List Char) :
    splitLF.consFirst c (glueLines pa r) = glueLines (c :: pa) r := by
  rcases r with ⟨ls, p⟩
  cases ls <;> simp [splitLF.consFirst, glueLines]

theorem splitLF_append (a b : List Char) :
    splitLF (a ++ b) =
      ((splitLF a).1 ++ (glueLines (splitLF a).2 (splitLF b)).1,
       (glueLines (splitLF a).2 (splitLF b)).2) := by
  induction a with
  | nil =>
    rcases hb : splitLF b with ⟨ls, p⟩
    cases ls <;> simp [splitLF, glueLines, hb]
  | cons c cs ih =>
    have hstep : splitLF (c :: (cs ++ b)) =
        if c = '\n' then ([] :: (splitLF (cs ++ b)).1, (splitLF (cs ++ b)).2)
        else splitLF.consFirst c (splitLF (cs ++ b)) := rfl
    have hstep2 : splitLF (c :: cs) =
        if c = '\n' then ([] :: (splitLF cs).1, (splitLF cs).2)
        else splitLF.consFirst c (splitLF cs) := rfl
    by_cases hc : c = '\n'
    · rw [List.cons_append, hstep, hstep2, if_pos hc, if_pos hc, ih]
      rcases hbl : (splitLF b).1 with _ | ⟨l, rest⟩ <;> simp [glueLines, hbl]
    · rw [List.cons_append, hstep, hstep2, if_neg hc, if_neg hc, ih]
      rcases ha : (splitLF cs).1 with _ | ⟨l, rest⟩
      · rw [List.nil_append]
        have hpair : ((glueLines (splitLF cs).2 (splitLF b)).1,
            (glueLines (splitLF cs).2 (splitLF b)).2) =
            glueLines (splitLF cs).2 (splitLF b) := rfl
        rw [hpair, consFirst_glueLines]
        have hcf : splitLF.consFirst c ((splitLF cs).1, (splitLF cs).2) =
            ([], c :: (splitLF cs).2) := by
          rw [ha]; rfl
        have hcf' : splitLF.consFirst c (splitLF cs) =
            ([], c :: (splitLF cs).2) := hcf
        rw [hcf', List.nil_append]
      · have hcf : splitLF.consFirst c (splitLF cs) =
            ((c :: l) :: rest, (splitLF cs).2) := by
          show splitLF.consFirst c ((splitLF cs).1, (splitLF cs).2) = _
          rw [ha]
          rfl
        rw [hcf]
        simp [splitLF.consFirst]

/-- Rust `str::lines` composed with the event loop's per-line handling: the
`'\n'`-separated pieces, the final one kept only when nonempty. -/
def linesOf (s : List Char) : List (List Char) :=
  (splitLF s).1 ++ (if (splitLF s).2 = [] then [] else [(splitLF s).2])

/-- `trim_end_matches('\r')`: drop all trailing carriage returns. -/
def trimCRs (l : List Char) : List Char :=
  (l.reverse.dropWhile (· = '\r')).reverse

/-- Rust `str::strip_prefix` over char lists. -/
def stripPrefixL (pat l : List Char) : Option (List Char) :=
  if pat <+: l then some (l.drop pat.length) else none

/-- One line's forwarded payload: after `\r`-trimming, strip `data:` and trim
leading whitespace; `none` when the line is not a data line. -/
def linePayload (line : List Char) : Option (List Char) :=
  (stripPrefixL ("data:".data) (trimCRs line)).map
    (fun d => d.dropWhile rustIsWhitespace)

/-- `chat::emit_event_block`: the payloads of a frame's data lines, in order. -/
def emit_event_block (block : List Char) : List (List Char) :=
  (linesOf block).filterMap linePayload

theorem linePayload_nil : linePayload [] = none := by decide

theorem linePayload_cr : linePayload ['\r'] = none := by decide

theorem trimCRs_append_cr (l : List Char) : trimCRs (l ++ ['\r']) = trimCRs l := by
  simp [trimCRs, List.dropWhile]

theorem linePayload_append_cr (l : List Char) :
    linePayload (l ++ ['\r']) = linePayload l := by
  simp [linePayload, trimCRs_append_cr]

theorem filterMap_tail_eq (pa : List Char) :
    List.filterMap linePayload (if pa = [] then [] else [pa]) =
      (linePayload pa).toList := by
  by_cases hpa : pa = []
  · simp [hpa, linePayload_nil]
  · cases h : linePayload pa <;> simp [hpa, h]

theorem filterMap_cons_payload (pa : List Char) (rest : List (List Char)) :
    List.filterMap linePayload (pa :: rest) =
      (linePayload pa).toList ++ List.filterMap linePayload rest := by
  cases h : linePayload pa <;> simp [h]

theorem emit_append_lflf (a c : List Char) :
    emit_event_block (a ++ '\n' :: '\n' :: c) =
      emit_event_block a ++ emit_event_block c := by
  have hsb : splitLF ('\n' :: '\n' :: c) =
      ([] :: [] :: (splitLF c).1, (splitLF c).2) := by
    simp [splitLF]
  unfold emit_event_block linesOf
  rw [splitLF_append a ('\n' :: '\n' :: c), hsb]
  simp only [glueLines, List.append_nil, List.cons_append, List.append_assoc]
  rw [List.filterMap_append, List.filterMap_append, List.filterMap_append,
    filterMap_tail_eq, filterMap_cons_payload, filterMap_cons_payload,
    linePayload_nil]
  simp [List.append_assoc]

theorem emit_append_crlfcrlf (a c : List Char) :
    emit_event_block (a ++ '\r' :: '\n' :: '\r' :: '\n' :: c) =
      emit_event_block a ++ emit_event_block c := by
  have hsb : splitLF ('\r' :: '\n' :: '\r' :: '\n' :: c) =
      (['\r'] :: ['\r'] :: (splitLF c).1, (splitLF c).2) := by
    simp [splitLF, splitLF.consFirst]
  unfold emit_event_block linesOf
  rw [splitLF_append a ('\r' :: '\n' :: '\r' :: '\n' :: c), hsb]
  simp only [glueLines, List.cons_append, List.append_assoc]
  rw [List.filterMap_append, List.filterMap_append, List.filterMap_append,
    filterMap_tail_eq, filterMap_cons_payload, filterMap_cons_payload,
    linePayload_append_cr, linePayload_cr]
  simp [List.append_assoc]

/-- Rust `str::find(pattern)`: the first index where `pat` occurs. -/
def findSubstring (pat : List Char) : List Char → Option Nat
  | [] => if pat <+: ([] : List Char) then some 0 else none
  | c :: cs =>
    if pat <+: (c :: cs) then some 0
    else (findSubstring pat cs).map (· + 1)

theorem findSubstring_some_iff (pat : List Char) :
    ∀ (s : List Char) (p : Nat),
      findSubstring pat s = some p ↔
        (pat <+: s.drop p ∧ ∀ j, j < p → ¬ pat <+: s.drop j) := by
  intro s
  induction s with
  | nil =>
    intro p
    by_cases hp : pat <+: ([] : List Char)
    · constructor
      · intro h
        simp only [findSubstring, if_pos hp, Option.some.injEq] at h
        subst h
        exact ⟨by simpa using hp, fun j hj => by omega⟩
      · rintro ⟨h1, h2⟩
        rcases Nat.eq_zero_or_pos p with rfl | hpos
        · simp [findSubstring, hp]
        · exact absurd (by simpa using hp) (h2 0 hpos)
    · constructor
      · intro h
        simp [findSubstring, hp] at h
      · rintro ⟨h1, h2⟩
        exact absurd (by simpa using h1) hp
  | cons c cs ih =>
    intro p
    by_cases hpre : pat <+: (c :: cs)
    · constructor
      · intro h
        simp only [findSubstring, if_pos hpre, Option.some.injEq] at h
        subst h
        exact ⟨by simpa using hpre, fun j hj => by omega⟩
      · rintro ⟨h1, h2⟩
        rcases Nat.eq_zero_or_pos p with rfl | hpos
        · simp [findSubstring, hpre]
        · exact absurd (by simpa using hpre) (h2 0 hpos)
    · simp only [findSubstring, if_neg hpre, Option.map_eq_some']
      constructor
      · rintro ⟨q, hq, rfl⟩
        obtain ⟨hq1, hq2⟩ := (ih q).mp hq
        refine ⟨by simpa using hq1, ?_⟩
        intro j hj
        cases j with
        | zero => simpa using hpre
        | succ j' =>
          have := hq2 j' (by omega)
          simpa using this
      · rintro ⟨h1, h2⟩
        cases p with
        | zero => exact absurd (by simpa using h1) hpre
        | succ q =>
          refine ⟨q, (ih q).mpr ⟨by simpa using h1, ?_⟩, rfl⟩
          intro j hj
          have := h2 (j + 1) (by omega)
          simpa using this

theorem findSubstring_none_iff (pat s : List Char) :
    findSubstring pat s = none ↔ ∀ j, ¬ pat <+: s.drop j := by
  constructor
  · intro h j hj
    have hex : ∃ j, pat <+: s.drop j := ⟨j, hj⟩
    have : findSubstring pat s = some (Nat.find hex) :=
      (findSubstring_some_iff pat s _).mpr
        ⟨Nat.find_spec hex, fun m hm => Nat.find_min hex hm⟩
    rw [this] at h
    cases h
  · intro h
    cases hf : findSubstring pat s with
    | none => rfl
    | some p => exact absurd ((findSubstring_some_iff pat s p).mp hf).1 (h p)

theorem findSubstring_le (pat s : List Char) (p : Nat) (hne : pat ≠ [])
    (h : findSubstring pat s = some p) : p + pat.length ≤ s.length := by
  obtain ⟨h1, -⟩ := (findSubstring_some_iff pat s p).mp h
  have hlen := h1.length_le
  rw [List.length_drop] at hlen
  by_cases hp : p ≤ s.length
  · omega
  · exfalso
    have hnil : s.drop p = [] := List.drop_eq_nil_of_le (by omega)
    rw [hnil, List.prefix_nil] at h1
    exact hne h1

theorem prefix_of_append_of_le (a x y : List Char) (h : a <+: x ++ y)
    (hl : a.length ≤ x.length) : a <+: x := by
  have hx : (x ++ y).take a.length = x.take a.length :=
    List.take_append_of_le_length hl
  rw [List.prefix_iff_eq_take, ← hx]
  exact List.prefix_iff_eq_take.mp h

theorem findSubstring_append (pat s t : List Char) (p : Nat) (hne : pat ≠ [])
    (h : findSubstring pat s = some p) : findSubstring pat (s ++ t) = some p := by
  have hb := findSubstring_le pat s p hne h
  obtain ⟨h1, h2⟩ := (findSubstring_some_iff pat s p).mp h
  rw [findSubstring_some_iff]
  constructor
  · have hdrop : (s ++ t).drop p = s.drop p ++ t :=
      List.drop_append_of_le_length (by omega)
    rw [hdrop]
    exact h1.trans (List.prefix_append _ _)
  · intro j hj hpre
    have hdropj : (s ++ t).drop j = s.drop j ++ t :=
      List.drop_append_of_le_length (by omega)
    rw [hdropj] at hpre
    have hlenj : pat.length ≤ (s.drop j).length := by
      rw [List.length_drop]
      omega
    exact h2 j hj (prefix_of_append_of_le _ _ _ hpre hlenj)

theorem findSubstring_drop (pat u : List Char) (d p : Nat)
    (h : findSubstring pat u = some p) (hd : d ≤ p) :
    findSubstring pat (u.drop d) = some (p - d) := by
  obtain ⟨h1, h2⟩ := (findSubstring_some_iff pat u p).mp h
  rw [findSubstring_some_iff]
  constructor
  · rw [List.drop_drop]
    have hdp : d + (p - d) = p := by omega
    rw [hdp]
    exact h1
  · intro j hj hpre
    rw [List.drop_drop] at hpre
    exact h2 (d + j) (by omega) hpre

theorem drop_eq_pat_append (pat u : List Char) (q : Nat) (h : pat <+: u.drop q) :
    u.drop q = pat ++ u.drop (q + pat.length) := by
  obtain ⟨r, hr⟩ := h
  have hrr : u.drop (q + pat.length) = r := by
    calc u.drop (q + pat.length) = (u.drop q).drop pat.length :=
          (List.drop_drop _ _ _).symm
      _ = (pat ++ r).drop pat.length := by rw [hr]
      _ = r := List.drop_left _ _
  rw [hrr]
  exact hr.symm

theorem prefix_char (pat u : List Char) (q i : Nat) (h : pat <+: u.drop q)
    (hi : i < pat.length) : u[q + i]? = pat[i]? := by
  rw [← List.getElem?_drop, drop_eq_pat_append pat u q h,
    List.getElem?_append_left hi]

/-- An `\n\n` occurrence and an `\r\n\r\n` occurrence cannot overlap. -/
theorem crlf_lflf_apart (u : List Char) (q p : Nat)
    (hq : lflfPat <+: u.drop q) (hp : crlfcrlfPat <+: u.drop p) :
    p + 2 ≤ q ∨ q + 2 ≤ p := by
  by_contra hcon
  push_neg at hcon
  have hq0 := prefix_char lflfPat u q 0 hq (by decide)
  have hq1 := prefix_char lflfPat u q 1 hq (by decide)
  have hp0 := prefix_char crlfcrlfPat u p 0 hp (by decide)
  have hp2 := prefix_char crlfcrlfPat u p 2 hp (by decide)
  simp only [lflfPat, crlfcrlfPat, Nat.add_zero] at hq0 hq1 hp0 hp2
  have hcase : p + 1 = q ∨ p = q ∨ p = q + 1 := by omega
  rcases hcase with hc | hc | hc
  · have hidx : p + 2 = q + 1 := by omega
    rw [hidx] at hp2
    rw [hp2] at hq1
    simp at hq1
  · rw [hc] at hp0
    rw [hp0] at hq0
    simp at hq0
  · rw [hc] at hp0
    rw [hp0] at hq1
    simp at hq1

/-- `chat::extract_event_block`: find the first `\r\n\r\n`, else the first
`\n\n`; return the frame before it and the bytes consumed including the
terminator. -/
def extract_event_block (buffer : List Char) : Option (List Char × Nat) :=
  match findSubstring crlfcrlfPat buffer with
  | some pos => some (buffer.take pos, pos + 4)
  | none =>
    match findSubstring lflfPat buffer with
    | some pos => some (buffer.take pos, pos + 2)
    | none => none

theorem extract_event_block_nil : extract_event_block [] = none := by decide

theorem extract_event_block_bounds (buffer block : List Char) (consumed : Nat)
    (h : extract_event_block buffer = some (block, consumed)) :
    2 ≤ consumed ∧ consumed ≤ buffer.length := by
  unfold extract_event_block at h
  cases hc : findSubstring crlfcrlfPat buffer with
  | some pos =>
    rw [hc] at h
    simp only [Option.some.injEq, Prod.mk.injEq] at h
    obtain ⟨-, rfl⟩ := h
    have := findSubstring_le crlfcrlfPat buffer pos (by decide) hc
    simp [crlfcrlfPat] at this
    omega
  | none =>
    rw [hc] at h
    cases hl : findSubstring lflfPat buffer with
    | some pos =>
      rw [hl] at h
      simp only [Option.some.injEq, Prod.mk.injEq] at h
      obtain ⟨-, rfl⟩ := h
      have := findSubstring_le lflfPat buffer pos (by decide) hl
      simp [lflfPat] at this
      omega
    | none =>
      rw [hl] at h
      cases h

/-- The extraction loop of `chat::forward_sse_payloads` (fuel-driven so the
kernel can evaluate it; `fuel = buffer.length` always suffices because every
extraction consumes at least the terminator). -/
def sseLoopFuel : Nat → List Char → List (List Char) × List Char
  | 0, buffer => ([], buffer)
  | fuel + 1, buffer =>
    match extract_event_block buffer with
    | none => ([], buffer)
    | some (block, consumed) =>
      (emit_event_block block ++ (sseLoopFuel fuel (buffer.drop consumed)).1,
       (sseLoopFuel fuel (buffer.drop consumed)).2)

/-- Greedy frame extraction: all payloads emitted from a buffer, and the
incomplete remainder kept for the next chunk. -/
def sseLoop (buffer : List Char) : List (List Char) × List Char :=
  sseLoopFuel buffer.length buffer

theorem sseLoopFuel_congr : ∀ (f g : Nat) (buffer : List Char),
    buffer.length ≤ f → buffer.length ≤ g →
    sseLoopFuel f buffer = sseLoopFuel g buffer := by
  intro f
  induction f with
  | zero =>
    intro g buffer h1 h2
    have hb : buffer = [] := List.eq_nil_of_length_eq_zero (by omega)
    subst hb
    cases g with
    | zero => rfl
    | succ g' => simp [sseLoopFuel, extract_event_block_nil]
  | succ f ihf =>
    intro g buffer h1 h2
    cases hx : extract_event_block buffer with
    | none =>
      cases g with
      | zero =>
        have hb : buffer = [] := List.eq_nil_of_length_eq_zero (by omega)
        subst hb
        simp [sseLoopFuel, extract_event_block_nil]
      | succ g' => simp [sseLoopFuel, hx]
    | some bc =>
      obtain ⟨block, consumed⟩ := bc
      obtain ⟨hc1, hc2⟩ := extract_event_block_bounds buffer block consumed hx
      cases g with
      | zero => omega
      | succ g' =>
        simp only [sseLoopFuel, hx]
        have hrec := ihf g' (buffer.drop consumed)
          (by rw [List.length_drop]; omega) (by rw [List.length_drop]; omega)
        rw [hrec]

theorem sseLoop_eq_none (buffer : List Char)
    (h : extract_event_block buffer = none) : sseLoop buffer = ([], buffer) := by
  unfold sseLoop
  rcases hn : buffer.length with _ | n
  · rfl
  · simp [sseLoopFuel, h]

theorem sseLoop_eq_some (buffer block : List Char) (consumed : Nat)
    (h : extract_event_block buffer = some (block, consumed)) :
    sseLoop buffer =
      (emit_event_block block ++ (sseLoop (buffer.drop consumed)).1,
       (sseLoop (buffer.drop consumed)).2) := by
  obtain ⟨hc1, hc2⟩ := extract_event_block_bounds buffer block consumed h
  unfold sseLoop
  have hn : buffer.length = (buffer.length - 1) + 1 := by omega
  rw [hn]
  simp only [sseLoopFuel, h]
  have hcongr := sseLoopFuel_congr (buffer.length - 1)
    (buffer.drop consumed).length (buffer.drop consumed)
    (by rw [List.length_drop]; omega) (le_refl _)
  rw [hcongr]

theorem sseLoop_residual_aux : ∀ (n : Nat) (buffer : List Char),
    buffer.length ≤ n →
    extract_event_block (sseLoop buffer).2 = none ∧ (sseLoop buffer).2 <:+ buffer := by
  intro n
  induction n with
  | zero =>
    intro buffer h
    have hb : buffer = [] := List.eq_nil_of_length_eq_zero (by omega)
    subst hb
    rw [sseLoop_eq_none [] extract_event_block_nil]
    exact ⟨extract_event_block_nil, List.suffix_rfl⟩
  | succ n ih =>
    intro buffer h
    cases hx : extract_event_block buffer with
    | none =>
      rw [sseLoop_eq_none buffer hx]
      exact ⟨hx, List.suffix_rfl⟩
    | some bc =>
      obtain ⟨block, consumed⟩ := bc
      obtain ⟨hc1, hc2⟩ := extract_event_block_bounds buffer block consumed hx
      rw [sseLoop_eq_some buffer block consumed hx]
      obtain ⟨ih1, ih2⟩ := ih (buffer.drop consumed)
        (by rw [List.length_drop]; omega)
      exact ⟨ih1, ih2.trans (List.drop_suffix consumed buffer)⟩

theorem sseLoop_residual_none (buffer : List Char) :
    extract_event_block (sseLoop buffer).2 = none :=
  (sseLoop_residual_aux buffer.length buffer le_rfl).1

theorem sseLoop_residual_suffix (buffer : List Char) :
    (sseLoop buffer).2 <:+ buffer :=
  (sseLoop_residual_aux buffer.length buffer le_rfl).2

theorem extract_via_crlf (s : List Char) (p : Nat)
    (h : findSubstring crlfcrlfPat s = some p) :
    extract_event_block s = some (s.take p, p + 4) := by
  unfold extract_event_block
  rw [h]

theorem extract_via_lflf (s : List Char) (q : Nat)
    (hc : findSubstring crlfcrlfPat s = none)
    (hl : findSubstring lflfPat s = some q) :
    extract_event_block s = some (s.take q, q + 2) := by
  unfold extract_event_block
  rw [hc, hl]

/-- Confluence of greedy frame extraction: processing `s ++ t` emits exactly
what processing `s` emits followed by what processing the residue extended by
`t` emits, with the same final residue.  This is the heart of
chunk-boundary independence. -/
theorem sseLoop_append_aux : ∀ (n : Nat) (s : List Char), s.length ≤ n →
    ∀ t : List Char,
    sseLoop (s ++ t) =
      ((sseLoop s).1 ++ (sseLoop ((sseLoop s).2 ++ t)).1,
       (sseLoop ((sseLoop s).2 ++ t)).2) := by
  intro n
  induction n with
  | zero =>
    intro s hs t
    have h : s = [] := List.eq_nil_of_length_eq_zero (by omega)
    subst h
    rw [sseLoop_eq_none [] extract_event_block_nil]
    simp
  | succ n ihn =>
    intro s hs t
    cases hcs : findSubstring crlfcrlfPat s with
    | some p =>
      have hxs : extract_event_block s = some (s.take p, p + 4) :=
        extract_via_crlf s p hcs
      have hb4 : p + 4 ≤ s.length := by
        simpa [crlfcrlfPat] using findSubstring_le crlfcrlfPat s p (by decide) hcs
      have hcu : findSubstring crlfcrlfPat (s ++ t) = some p :=
        findSubstring_append _ _ _ _ (by decide) hcs
      have hxu : extract_event_block (s ++ t) = some ((s ++ t).take p, p + 4) :=
        extract_via_crlf _ p hcu
      have htake : (s ++ t).take p = s.take p :=
        List.take_append_of_le_length (by omega)
      have hdrop : (s ++ t).drop (p + 4) = s.drop (p + 4) ++ t :=
        List.drop_append_of_le_length (by omega)
      rw [sseLoop_eq_some _ _ _ hxu, sseLoop_eq_some _ _ _ hxs, htake, hdrop]
      have hrec := ihn (s.drop (p + 4)) (by rw [List.length_drop]; omega) t
      rw [hrec]
      simp [List.append_assoc]
    | none =>
      cases hls : findSubstring lflfPat s with
      | none =>
        have hxs : extract_event_block s = none := by
          unfold extract_event_block
          rw [hcs, hls]
        rw [sseLoop_eq_none s hxs]
        simp
      | some q =>
        have hxs : extract_event_block s = some (s.take q, q + 2) :=
          extract_via_lflf s q hcs hls
        have hb2 : q + 2 ≤ s.length := by
          simpa [lflfPat] using findSubstring_le lflfPat s q (by decide) hls
        have hlu : findSubstring lflfPat (s ++ t) = some q :=
          findSubstring_append _ _ _ _ (by decide) hls
        have htake : (s ++ t).take q = s.take q :=
          List.take_append_of_le_length (by omega)
        have hdropq : (s ++ t).drop (q + 2) = s.drop (q + 2) ++ t :=
          List.drop_append_of_le_length (by omega)
        cases hcu : findSubstring crlfcrlfPat (s ++ t) with
        | none =>
          have hxu : extract_event_block (s ++ t) =
              some ((s ++ t).take q, q + 2) := extract_via_lflf _ q hcu hlu
          rw [sseLoop_eq_some _ _ _ hxu, sseLoop_eq_some _ _ _ hxs, htake,
            hdropq]
          have hrec := ihn (s.drop (q + 2)) (by rw [List.length_drop]; omega) t
          rw [hrec]
          simp [List.append_assoc]
        | some p' =>
          obtain ⟨hpq1, -⟩ := (findSubstring_some_iff lflfPat (s ++ t) q).mp hlu
          obtain ⟨hpp1, -⟩ :=
            (findSubstring_some_iff crlfcrlfPat (s ++ t) p').mp hcu
          have hqp : q + 2 ≤ p' := by
            rcases crlf_lflf_apart (s ++ t) q p' hpq1 hpp1 with hcase | hcase
            · exfalso
              have hdropp : (s ++ t).drop p' = s.drop p' ++ t :=
                List.drop_append_of_le_length (by omega)
              rw [hdropp] at hpp1
              have hlenp : crlfcrlfPat.length ≤ (s.drop p').length := by
                simp only [crlfcrlfPat, List.length_drop]
                simp
                omega
              have hinS := prefix_of_append_of_le _ _ _ hpp1 hlenp
              exact (findSubstring_none_iff crlfcrlfPat s).mp hcs p' hinS
            · exact hcase
          have hxu : extract_event_block (s ++ t) =
              some ((s ++ t).take p', p' + 4) := extract_via_crlf _ p' hcu
          have hfd : findSubstring crlfcrlfPat ((s ++ t).drop (q + 2)) =
              some (p' - (q + 2)) := findSubstring_drop _ _ _ _ hcu hqp
          have hxd : extract_event_block ((s ++ t).drop (q + 2)) =
              some (((s ++ t).drop (q + 2)).take (p' - (q + 2)),
                (p' - (q + 2)) + 4) := extract_via_crlf _ _ hfd
          have hu_drop_q : (s ++ t).drop q =
              '\n' :: '\n' :: (s ++ t).drop (q + 2) := by
            have hh := drop_eq_pat_append lflfPat (s ++ t) q hpq1
            simpa [lflfPat] using hh
          have htake_dec : (s ++ t).take p' =
              s.take q ++ '\n' :: '\n' ::
                ((s ++ t).drop (q + 2)).take (p' - (q + 2)) := by
            have h1 : (s ++ t).take p' =
                (s ++ t).take q ++ ((s ++ t).drop q).take (p' - q) := by
              rw [show p' = q + (p' - q) from by omega, List.take_add]
              congr 2
              try omega
            rw [h1, htake, hu_drop_q]
            congr 1
            rw [show p' - q = (p' - q - 2) + 1 + 1 from by omega]
            simp only [List.take_succ_cons]
            congr 2
            try omega
          rw [sseLoop_eq_some _ _ _ hxu, sseLoop_eq_some _ _ _ hxs]
          have hrec := ihn (s.drop (q + 2)) (by rw [List.length_drop]; omega) t
          have hmid := sseLoop_eq_some _ _ _ hxd
          have hdd : ((s ++ t).drop (q + 2)).drop ((p' - (q + 2)) + 4) =
              (s ++ t).drop (p' + 4) := by
            rw [List.drop_drop]
            congr 1
            omega
          rw [hdd] at hmid
          have hconn : sseLoop (s.drop (q + 2) ++ t) =
              sseLoop ((s ++ t).drop (q + 2)) := by
            rw [hdropq]
          have hkey := hrec.symm.trans (hconn.trans hmid)
          rw [Prod.mk.injEq] at hkey
          obtain ⟨hkey1, hkey2⟩ := hkey
          rw [htake_dec, emit_append_lflf]
          simp only [Prod.mk.injEq]
          constructor
          · rw [List.append_assoc, List.append_assoc, ← hkey1]
          · exact hkey2.symm

theorem sseLoop_append (s t : List Char) :
    sseLoop (s ++ t) =
      ((sseLoop s).1 ++ (sseLoop ((sseLoop s).2 ++ t)).1,
       (sseLoop ((sseLoop s).2 ++ t)).2) :=
  sseLoop_append_aux s.length s le_rfl t

/-- `chat::forward_sse_payloads` (alive-receiver path): append the chunk to
the rolling buffer and greedily extract/emit complete frames. -/
def forward_sse_payloads (buffer chunk : List Char) :
    List (List Char) × List Char :=
  sseLoop (buffer ++ chunk)

/-- Feeding a sequence of chunks through the forwarding loop: all payloads in
order and the final rolling buffer. -/
def feedChunks : List Char → List (List Char) → List (List Char) × List Char
  | buffer, [] => ([], buffer)
  | buffer, c :: cs =>
    ((forward_sse_payloads buffer c).1 ++
      (feedChunks (forward_sse_payloads buffer c).2 cs).1,
     (feedChunks (forward_sse_payloads buffer c).2 cs).2)

theorem feedChunks_eq_sseLoop : ∀ (chunks : List (List Char))
    (buffer : List Char), extract_event_block buffer = none →
    feedChunks buffer chunks = sseLoop (buffer ++ chunks.flatten) := by
  intro chunks
  induction chunks with
  | nil =>
    intro buffer hb
    rw [show feedChunks buffer [] = ([], buffer) from rfl]
    rw [List.flatten_nil, List.append_nil, sseLoop_eq_none buffer hb]
  | cons c cs ih =>
    intro buffer hb
    rw [show feedChunks buffer (c :: cs) =
      ((forward_sse_payloads buffer c).1 ++
        (feedChunks (forward_sse_payloads buffer c).2 cs).1,
       (feedChunks (forward_sse_payloads buffer c).2 cs).2) from rfl]
    unfold forward_sse_payloads
    rw [ih (sseLoop (buffer ++ c)).2 (sseLoop_residual_none _)]
    rw [List.flatten_cons, show buffer ++ (c ++ cs.flatten) = (buffer ++ c) ++ cs.flatten
      from by rw [List.append_assoc]]
    rw [sseLoop_append (buffer ++ c) cs.flatten]

/-- C3.  Chunk-boundary independence of SSE forwarding: feeding any chunk
sequence through `forward_sse_payloads` yields exactly the payloads (and
residual buffer) of processing the concatenation in one piece; in particular
any split of `"data: A\n\ndata: B\n\n"` forwards `["A","B"]` in order. -/
theorem c3_chunk_boundary_independence :
    (∀ chunks : List (List Char), feedChunks [] chunks = sseLoop chunks.flatten) ∧
    sseLoop ("data: A\n\ndata: B\n\n".data) = (["A".data, "B".data], []) ∧
    (∀ chunks : List (List Char),
      chunks.flatten = ("data: A\n\ndata: B\n\n").data →
      (feedChunks [] chunks).1 = ["A".data, "B".data]) := by
  have hmain : ∀ chunks : List (List Char),
      feedChunks [] chunks = sseLoop chunks.flatten := by
    intro chunks
    have h := feedChunks_eq_sseLoop chunks [] extract_event_block_nil
    simpa using h
  have hconc : sseLoop ("data: A\n\ndata: B\n\n".data) =
      (["A".data, "B".data], []) := by decide
  refine ⟨hmain, hconc, ?_⟩
  intro chunks hj
  rw [hmain chunks, hj, hconc]

/-- C3 witness: a concrete split of the example stream across an awkward
chunk boundary forwards the same payloads. -/
theorem c3_chunk_boundary_independence_witness :
    (feedChunks [] ["data: A\n\nda".data, "ta: B\n\n".data]).1 =
      ["A".data, "B".data] :=
  c3_chunk_boundary_independence.2.2 ["data: A\n\nda".data, "ta: B\n\n".data]
    (by decide)

/-! C8 infrastructure: what the loop emits from a whole buffer. -/

theorem sseLoop_emit_aux : ∀ (n : Nat) (s : List Char), s.length ≤ n →
    (sseLoop s).1 ++ emit_event_block (sseLoop s).2 = emit_event_block s := by
  intro n
  induction n with
  | zero =>
    intro s hs
    have h : s = [] := List.eq_nil_of_length_eq_zero (by omega)
    subst h
    rw [sseLoop_eq_none [] extract_event_block_nil]
    rfl
  | succ n ihn =>
    intro s hs
    cases hcs : findSubstring crlfcrlfPat s with
    | some p =>
      have hxs : extract_event_block s = some (s.take p, p + 4) :=
        extract_via_crlf s p hcs
      obtain ⟨hpre, -⟩ := (findSubstring_some_iff crlfcrlfPat s p).mp hcs
      have hb4 : p + 4 ≤ s.length := by
        simpa [crlfcrlfPat] using findSubstring_le crlfcrlfPat s p (by decide) hcs
      have hsplit : s = s.take p ++ '\r' :: '\n' :: '\r' :: '\n' :: s.drop (p + 4) := by
        conv_lhs => rw [← List.take_append_drop p s]
        congr 1
        have hd := drop_eq_pat_append crlfcrlfPat s p hpre
        simpa [crlfcrlfPat] using hd
      rw [sseLoop_eq_some _ _ _ hxs]
      conv_rhs => rw [hsplit]
      rw [emit_append_crlfcrlf]
      have hrec := ihn (s.drop (p + 4)) (by rw [List.length_drop]; omega)
      rw [List.append_assoc, hrec]
    | none =>
      cases hls : findSubstring lflfPat s with
      | none =>
        have hxs : extract_event_block s = none := by
          unfold extract_event_block
          rw [hcs, hls]
        rw [sseLoop_eq_none s hxs]
        rfl
      | some q =>
        have hxs : extract_event_block s = some (s.take q, q + 2) :=
          extract_via_lflf s q hcs hls
        obtain ⟨hpre, -⟩ := (findSubstring_some_iff lflfPat s q).mp hls
        have hb2 : q + 2 ≤ s.length := by
          simpa [lflfPat] using findSubstring_le lflfPat s q (by decide) hls
        have hsplit : s = s.take q ++ '\n' :: '\n' :: s.drop (q + 2) := by
          conv_lhs => rw [← List.take_append_drop q s]
          congr 1
          have hd := drop_eq_pat_append lflfPat s q hpre
          simpa [lflfPat] using hd
        rw [sseLoop_eq_some _ _ _ hxs]
        conv_rhs => rw [hsplit]
        rw [emit_append_lflf]
        have hrec := ihn (s.drop (q + 2)) (by rw [List.length_drop]; omega)
        rw [List.append_assoc, hrec]

/-- Emitted payloads plus the residue's potential payloads are exactly the
payloads of the whole buffer treated as one block. -/
theorem sseLoop_emit (s : List Char) :
    (sseLoop s).1 ++ emit_event_block (sseLoop s).2 = emit_event_block s :=
  sseLoop_emit_aux s.length s le_rfl

theorem extract_none_finds (s : List Char) (h : extract_event_block s = none) :
    findSubstring crlfcrlfPat s = none ∧ findSubstring lflfPat s = none := by
  unfold extract_event_block at h
  cases h1 : findSubstring crlfcrlfPat s with
  | some p =>
    rw [h1] at h
    cases h
  | none =>
    rw [h1] at h
    cases h2 : findSubstring lflfPat s with
    | some q =>
      rw [h2] at h
      cases h
    | none => exact ⟨rfl, rfl⟩

theorem splitLF_cons_lf (cs : List Char) :
    splitLF ('\n' :: cs) = ([] :: (splitLF cs).1, (splitLF cs).2) := by
  simp [splitLF]

theorem splitLF_length_bound : ∀ (r : List Char),
    (∀ l ∈ (splitLF r).1, l.length ≤ r.length) ∧
    (splitLF r).2.length ≤ r.length := by
  intro r
  induction r with
  | nil => simp [splitLF]
  | cons c cs ih =>
    by_cases hc : c = '\n'
    · subst hc
      rw [splitLF_cons_lf]
      constructor
      · intro l hl
        rcases List.mem_cons.mp hl with rfl | hl
        · simp
        · have := ih.1 l hl
          simp only [List.length_cons]
          omega
      · have := ih.2
        simp only [List.length_cons]
        omega
    · simp only [splitLF, if_neg hc]
      rcases hcs : (splitLF cs).1 with _ | ⟨l0, rest⟩
      · have hcf : splitLF.consFirst c (splitLF cs) = ([], c :: (splitLF cs).2) := by
          show splitLF.consFirst c ((splitLF cs).1, (splitLF cs).2) = _
          rw [hcs]
          rfl
        rw [hcf]
        constructor
        · intro l hl
          simp at hl
        · have := ih.2
          simp only [List.length_cons]
          omega
      · have hcf : splitLF.consFirst c (splitLF cs) =
            ((c :: l0) :: rest, (splitLF cs).2) := by
          show splitLF.consFirst c ((splitLF cs).1, (splitLF cs).2) = _
          rw [hcs]
          rfl
        rw [hcf]
        constructor
        · intro l hl
          rcases List.mem_cons.mp hl with rfl | hl
          · have := ih.1 l0 (by rw [hcs]; exact List.mem_cons_self _ _)
            simp only [List.length_cons]
            omega
          · have := ih.1 l (by rw [hcs]; exact List.mem_cons_of_mem _ hl)
            simp only [List.length_cons]
            omega
        · have := ih.2
          simp only [List.length_cons]
          omega

theorem dropWhile_length_le (p : Char → Bool) :
    ∀ l : List Char, (l.dropWhile p).length ≤ l.length := by
  intro l
  induction l with
  | nil => simp
  | cons c cs ih =>
    by_cases hc : p c
    · simp only [List.dropWhile, hc]
      simp only [List.length_cons]
      omega
    · simp [List.dropWhile, hc]

theorem trimCRs_length_le (l : List Char) : (trimCRs l).length ≤ l.length := by
  unfold trimCRs
  rw [List.length_reverse]
  have h := dropWhile_length_le (· = '\r') l.reverse
  rw [List.length_reverse] at h
  exact h

theorem linePayload_short (l : List Char) (h : l.length ≤ 4) :
    linePayload l = none := by
  unfold linePayload stripPrefixL
  rw [if_neg]
  · rfl
  · intro hpre
    have h1 := hpre.length_le
    have h2 := trimCRs_length_le l
    have h3 : ("data:".data).length = 5 := rfl
    omega

theorem emit_short (r : List Char) (h : r.length ≤ 4) :
    emit_event_block r = [] := by
  unfold emit_event_block
  rw [List.filterMap_eq_nil_iff]
  intro l hl
  apply linePayload_short
  have hb := splitLF_length_bound r
  unfold linesOf at hl
  rcases List.mem_append.mp hl with hl | hl
  · exact le_trans (hb.1 l hl) h
  · by_cases hp : (splitLF r).2 = []
    · simp [hp] at hl
    · simp only [hp, if_neg, if_false, List.mem_singleton] at hl
      subst hl
      exact le_trans hb.2 h

/-- Framing a block sequence with a given terminator. -/
def frameWith (term : List Char) (blocks : List (List Char)) : List Char :=
  (blocks.map (fun b => b ++ term)).flatten

theorem frameWith_cons (term b : List Char) (bs : List (List Char)) :
    frameWith term (b :: bs) = (b ++ term) ++ frameWith term bs := by
  simp [frameWith]

theorem frameWith_ends (term : List Char) : ∀ blocks : List (List Char),
    blocks ≠ [] → ∃ w, frameWith term blocks = w ++ term := by
  intro blocks
  induction blocks with
  | nil => intro h; exact absurd rfl h
  | cons b bs ih =>
    intro _
    cases hbs : bs with
    | nil => exact ⟨b, by simp [frameWith]⟩
    | cons b' bs' =>
      obtain ⟨w, hw⟩ := ih (by simp [hbs])
      rw [hbs] at hw
      refine ⟨(b ++ term) ++ w, ?_⟩
      rw [frameWith_cons, hw]
      simp [List.append_assoc]

theorem emit_frameWith_lflf (blocks : List (List Char)) :
    emit_event_block (frameWith lflfPat blocks) =
      (blocks.map emit_event_block).flatten := by
  induction blocks with
  | nil => rfl
  | cons b bs ih =>
    rw [frameWith_cons]
    have hshape : (b ++ lflfPat) ++ frameWith lflfPat bs =
        b ++ '\n' :: '\n' :: frameWith lflfPat bs := by
      simp [lflfPat]
    rw [hshape, emit_append_lflf, ih]
    simp

theorem emit_frameWith_crlfcrlf (blocks : List (List Char)) :
    emit_event_block (frameWith crlfcrlfPat blocks) =
      (blocks.map emit_event_block).flatten := by
  induction blocks with
  | nil => rfl
  | cons b bs ih =>
    rw [frameWith_cons]
    have hshape : (b ++ crlfcrlfPat) ++ frameWith crlfcrlfPat bs =
        b ++ '\r' :: '\n' :: '\r' :: '\n' :: frameWith crlfcrlfPat bs := by
      simp [crlfcrlfPat]
    rw [hshape, emit_append_crlfcrlf, ih]
    simp

theorem suffix_last_eq (u r : List Char) (k : Nat) (hr : r <:+ u)
    (hk : k ≤ r.length) :
    r.drop (r.length - k) = u.drop (u.length - k) := by
  obtain ⟨pre, hpre⟩ := hr
  rw [← hpre, List.length_append,
    show pre.length + r.length - k = pre.length + (r.length - k) from by omega,
    List.drop_append]

theorem residual_short_lflf (blocks : List (List Char)) (hne : blocks ≠ []) :
    (sseLoop (frameWith lflfPat blocks)).2.length ≤ 1 := by
  obtain ⟨w, hw⟩ := frameWith_ends lflfPat blocks hne
  have hsuf := sseLoop_residual_suffix (frameWith lflfPat blocks)
  have hnone := sseLoop_residual_none (frameWith lflfPat blocks)
  obtain ⟨-, hl⟩ := extract_none_finds _ hnone
  by_contra hlen
  push_neg at hlen
  have htail := suffix_last_eq (frameWith lflfPat blocks)
    (sseLoop (frameWith lflfPat blocks)).2 2 hsuf (by omega)
  have hu2 : (frameWith lflfPat blocks).drop
      ((frameWith lflfPat blocks).length - 2) = lflfPat := by
    rw [hw, List.length_append,
      show w.length + lflfPat.length - 2 = w.length from by simp [lflfPat],
      List.drop_left]
  have hpre : lflfPat <+: (sseLoop (frameWith lflfPat blocks)).2.drop
      ((sseLoop (frameWith lflfPat blocks)).2.length - 2) := by
    rw [htail, hu2]
  exact (findSubstring_none_iff lflfPat _).mp hl _ hpre

theorem residual_short_crlfcrlf (blocks : List (List Char)) (hne : blocks ≠ []) :
    (sseLoop (frameWith crlfcrlfPat blocks)).2.length ≤ 3 := by
  obtain ⟨w, hw⟩ := frameWith_ends crlfcrlfPat blocks hne
  have hsuf := sseLoop_residual_suffix (frameWith crlfcrlfPat blocks)
  have hnone := sseLoop_residual_none (frameWith crlfcrlfPat blocks)
  obtain ⟨hcr, -⟩ := extract_none_finds _ hnone
  by_contra hlen
  push_neg at hlen
  have htail := suffix_last_eq (frameWith crlfcrlfPat blocks)
    (sseLoop (frameWith crlfcrlfPat blocks)).2 4 hsuf (by omega)
  have hu4 : (frameWith crlfcrlfPat blocks).drop
      ((frameWith crlfcrlfPat blocks).length - 4) = crlfcrlfPat := by
    rw [hw, List.length_append,
      show w.length + crlfcrlfPat.length - 4 = w.length from by simp [crlfcrlfPat],
      List.drop_left]
  have hpre : crlfcrlfPat <+: (sseLoop (frameWith crlfcrlfPat blocks)).2.drop
      ((sseLoop (frameWith crlfcrlfPat blocks)).2.length - 4) := by
    rw [htail, hu4]
  exact (findSubstring_none_iff crlfcrlfPat _).mp hcr _ hpre

theorem sseLoop_frame_lflf (blocks : List (List Char)) :
    (sseLoop (frameWith lflfPat blocks)).1 =
      (blocks.map emit_event_block).flatten := by
  rcases hb : blocks with _ | ⟨b, bs⟩
  · rfl
  · have hM := sseLoop_emit (frameWith lflfPat (b :: bs))
    have hres : emit_event_block (sseLoop (frameWith lflfPat (b :: bs))).2 = [] :=
      emit_short _ (le_trans (residual_short_lflf (b :: bs) (by simp)) (by omega))
    rw [hres, List.append_nil] at hM
    rw [hM, emit_frameWith_lflf]

theorem sseLoop_frame_crlfcrlf (blocks : List (List Char)) :
    (sseLoop (frameWith crlfcrlfPat blocks)).1 =
      (blocks.map emit_event_block).flatten := by
  rcases hb : blocks with _ | ⟨b, bs⟩
  · rfl
  · have hM := sseLoop_emit (frameWith crlfcrlfPat (b :: bs))
    have hres : emit_event_block (sseLoop (frameWith crlfcrlfPat (b :: bs))).2 = [] :=
      emit_short _ (le_trans (residual_short_crlfcrlf (b :: bs) (by simp)) (by omega))
    rw [hres, List.append_nil] at hM
    rw [hM, emit_frameWith_crlfcrlf]

/-- C8.  CRLFCRLF/LFLF equivalence: any block sequence framed with either
terminator forwards exactly the same payload sequence (both equal the
per-block payloads in order), and frame extraction recognizes both terminator
forms. -/
theorem c8_crlf_lflf_equivalence :
    (∀ blocks : List (List Char),
      (sseLoop (frameWith crlfcrlfPat blocks)).1 =
        (sseLoop (frameWith lflfPat blocks)).1 ∧
      (sseLoop (frameWith crlfcrlfPat blocks)).1 =
        (blocks.map emit_event_block).flatten) ∧
    (∀ b : List Char, extract_event_block (b ++ crlfcrlfPat) ≠ none ∧
      extract_event_block (b ++ lflfPat) ≠ none) := by
  constructor
  · intro blocks
    rw [sseLoop_frame_crlfcrlf, sseLoop_frame_lflf]
    exact ⟨rfl, rfl⟩
  · intro b
    constructor
    · intro h
      obtain ⟨h1, -⟩ := extract_none_finds _ h
      have hpre : crlfcrlfPat <+: (b ++ crlfcrlfPat).drop b.length := by
        rw [List.drop_left]
      exact (findSubstring_none_iff crlfcrlfPat _).mp h1 b.length hpre
    · intro h
      obtain ⟨-, h2⟩ := extract_none_finds _ h
      have hpre : lflfPat <+: (b ++ lflfPat).drop b.length := by
        rw [List.drop_left]
      exact (findSubstring_none_iff lflfPat _).mp h2 b.length hpre

/-- C9.  Tile-selection parsing: tokens split on commas/whitespace, only
in-range `usize` tokens kept, result deduplicated in ascending order; the
spec's two concrete instances evaluate as stated. -/
theorem c9_parse_tile_selection_spec :
    (∀ input len, (parse_tile_selection input len).Pairwise (· < ·) ∧
      (∀ z, z ∈ parse_tile_selection input len ↔
        ∃ t ∈ splitOnPred tileSeparator input,
          t ≠ [] ∧ parseUsize t = some z ∧ z < len)) ∧
    parse_tile_selection ("0, 3 4, 4, 2".data) 5 = [0, 2, 3, 4] ∧
    parse_tile_selection ("1, 9, -1, 2".data) 3 = [1, 2] := by
  refine ⟨fun input len => ⟨parse_tile_selection_sorted input len,
    fun z => parse_tile_selection_mem_iff input len z⟩, by decide, by decide⟩

end Duckai
